import Mathlib

/-!
Verification of the systematic Reed-Solomon erasure codec of OpenPGM
(`pgm/include/pgm/reed_solomon.h`): GF(2^8) field engine with log/antilog
tables, systematic Vandermonde generator matrix, encoder, and the two
decoder entry variants.  The public header declares the interface
(`pgm_rs_create`, `pgm_rs_encode`, `pgm_rs_decode_parity_inline`,
`pgm_rs_decode_parity_appended`); the algorithmic bodies are modelled from
the specification.
-/

set_option maxRecDepth 100000

/-! ## Field engine: GF(2^8) log/antilog tables -/

/-- Modelled from the spec: the fixed primitive polynomial of degree 8 used
by the field engine (the implementation file `galois.c` is not in the tree).
We take x^8 + x^4 + x^3 + x^2 + 1, i.e. 0x11d. -/
def gfPoly : Nat := 285

/-- Multiplication by the field element 2 (the polynomial x): shift, then
reduce by the primitive polynomial when the degree-8 bit appears. -/
def xtimes (a : Nat) : Nat := if 2 * a < 256 then 2 * a else (2 * a) ^^^ gfPoly

/-- Modelled from the spec: the 255-entry antilog table, packed into one
natural number, eight bits per entry; entry i is alpha^i with alpha = 2. -/
def antilogPacked : Nat :=
  ((List.range 255).foldl (fun st i => (st.1 ||| (st.2 <<< (8 * i)), xtimes st.2)) (0, 1)).1

/-- Table lookup: alpha^i for 0 <= i < 255. -/
def gfantilog (i : Nat) : Nat := (antilogPacked >>> (8 * i)) % 256

/-- Modelled from the spec: the 256-entry log table, packed into one natural
number; byte a holds the discrete log of a (byte 0 is unused and zero). -/
def logPacked : Nat :=
  (List.range 255).foldl (fun acc i => acc ||| (i <<< (8 * gfantilog i))) 0

/-- Table lookup: discrete log of a nonzero byte a. -/
def gflog (a : Nat) : Nat := (logPacked >>> (8 * a)) % 256

/-- Modelled from the spec: `multiply(a,b)`: 0 if either operand is 0, else
`antilog[(log[a]+log[b]) mod 255]`. -/
def gfmulB (a b : Nat) : Nat :=
  if a = 0 ∨ b = 0 then 0 else gfantilog ((gflog a + gflog b) % 255)

/-- Modelled from the spec: the total core of `divide(a,b)` for nonzero b:
`antilog[(log[a]-log[b]+255) mod 255]` (and 0 when the dividend is 0; the
`DivisionByZero` failure on b = 0 is raised by the wrapper `gf_divide`). -/
def gfdivB (a b : Nat) : Nat :=
  if a = 0 then 0 else gfantilog ((gflog a + 255 - gflog b) % 255)

/-- Multiplicative inverse at byte level: `divide(1, a)` for nonzero a, with
0 mapped to 0 by convention. -/
def gfinvB (a : Nat) : Nat := if a = 0 then 0 else gfdivB 1 a

/-- Field elements are byte values 0..255. -/
structure GF where
  val : Nat
  isLt : val < 256

/-- Byte entry into the field, truncating like a `uint8_t` store. -/
def GF.ofNat (x : Nat) : GF := ⟨x % 256, Nat.mod_lt x (by omega)⟩

/-- Addition and subtraction in GF(2^8) are XOR. -/
def GF.add (a b : GF) : GF := ⟨a.val ^^^ b.val, Nat.xor_lt_two_pow (n := 8) a.isLt b.isLt⟩

/-- Field multiplication via the log/antilog tables. -/
def GF.mul (a b : GF) : GF := GF.ofNat (gfmulB a.val b.val)

/-- Multiplicative inverse (0 maps to 0). -/
def GF.inv (a : GF) : GF := GF.ofNat (gfinvB a.val)

instance : DecidableEq GF := fun a b =>
  decidable_of_iff (a.val = b.val)
    ⟨fun h => by cases a; cases b; simpa using h, fun h => by rw [h]⟩

instance : Zero GF := ⟨⟨0, by omega⟩⟩

instance : One GF := ⟨⟨1, by omega⟩⟩

/-! ## Table facts (established by computation) and field laws -/

theorem GF.ext_val {a b : GF} (h : a.val = b.val) : a = b := by
  cases a; cases b; simpa using h

theorem gfantilog_lt (i : Nat) : gfantilog i < 256 := Nat.mod_lt _ (by omega)

theorem gfmulB_lt (a b : Nat) : gfmulB a b < 256 := by
  unfold gfmulB
  split
  · omega
  · exact gfantilog_lt _

theorem gfantilog_zero : gfantilog 0 = 1 := by decide

theorem gfantilog_ne_zero : ∀ i < 255, gfantilog i ≠ 0 := by decide

theorem gflog_gfantilog : ∀ i < 255, gflog (gfantilog i) = i := by decide

theorem gfantilog_gflog : ∀ a < 256, a ≠ 0 → gfantilog (gflog a) = a := by decide

theorem gflog_lt : ∀ a < 256, a ≠ 0 → gflog a < 255 := by decide

theorem gflog_one : gflog 1 = 0 := by decide

theorem gflog_two : gflog 2 = 1 := by decide

theorem gfmulB_two_xtimes : ∀ x < 256, gfmulB 2 x = xtimes x := by decide

theorem xor_xor_xor_comm (a b c d : Nat) :
    (a ^^^ b) ^^^ (c ^^^ d) = (a ^^^ c) ^^^ (b ^^^ d) := by
  rw [Nat.xor_assoc, Nat.xor_assoc]
  congr 1
  rw [← Nat.xor_assoc, ← Nat.xor_assoc, Nat.xor_comm b c]

theorem two_mul_xor (b c : Nat) : 2 * (b ^^^ c) = 2 * b ^^^ 2 * c := by
  apply Nat.eq_of_testBit_eq
  intro i
  have h2 : ∀ x : Nat, 2 * x = x <<< 1 := by
    intro x
    rw [Nat.shiftLeft_eq, pow_one, Nat.mul_comm]
  rw [h2, h2, h2, Nat.testBit_xor, Nat.testBit_shiftLeft, Nat.testBit_shiftLeft,
    Nat.testBit_shiftLeft, Nat.testBit_xor]
  cases hd : decide (i ≥ 1) <;> simp

theorem testBit7_eq (x : Nat) (hx : x < 256) : x.testBit 7 = decide (128 ≤ x) := by
  rw [Nat.testBit_to_div_mod, decide_eq_decide]
  omega

theorem xtimes_eq (a : Nat) : xtimes a = 2 * a ^^^ (if 128 ≤ a then gfPoly else 0) := by
  unfold xtimes
  by_cases h : 128 ≤ a
  · rw [if_neg (by omega), if_pos h]
  · rw [if_pos (by omega), if_neg h, Nat.xor_zero]

theorem xtimes_add (b c : Nat) (hb : b < 256) (hc : c < 256) :
    xtimes (b ^^^ c) = xtimes b ^^^ xtimes c := by
  have hbc : b ^^^ c < 256 := Nat.xor_lt_two_pow (n := 8) hb hc
  have hmask : (if 128 ≤ b ^^^ c then gfPoly else 0) =
      (if 128 ≤ b then gfPoly else 0) ^^^ (if 128 ≤ c then gfPoly else 0) := by
    have h1 := testBit7_eq b hb
    have h2 := testBit7_eq c hc
    have h3 := testBit7_eq (b ^^^ c) hbc
    rw [Nat.testBit_xor, h1, h2] at h3
    by_cases hB : 128 ≤ b <;> by_cases hC : 128 ≤ c <;>
      simp [hB, hC] at h3 ⊢ <;> simp [h3, Nat.xor_self]
  rw [xtimes_eq, xtimes_eq, xtimes_eq, hmask, two_mul_xor, xor_xor_xor_comm]

theorem gfmulB_two_add (b c : Nat) (hb : b < 256) (hc : c < 256) :
    gfmulB 2 (b ^^^ c) = gfmulB 2 b ^^^ gfmulB 2 c := by
  rw [gfmulB_two_xtimes _ (Nat.xor_lt_two_pow (n := 8) hb hc),
    gfmulB_two_xtimes _ hb, gfmulB_two_xtimes _ hc]
  exact xtimes_add b c hb hc

theorem gfmulB_iter_add (m b c : Nat) (hb : b < 256) (hc : c < 256) :
    (gfmulB 2)^[m] (b ^^^ c) = (gfmulB 2)^[m] b ^^^ (gfmulB 2)^[m] c := by
  induction m generalizing b c with
  | zero => simp
  | succ m ih =>
    rw [Function.iterate_succ_apply, Function.iterate_succ_apply,
      Function.iterate_succ_apply, gfmulB_two_add b c hb hc]
    exact ih _ _ (gfmulB_lt 2 b) (gfmulB_lt 2 c)

theorem gfmulB_iter_form (m : Nat) :
    ∀ x < 256, (gfmulB 2)^[m] x = if x = 0 then 0 else gfantilog ((m + gflog x) % 255) := by
  induction m with
  | zero =>
    intro x hx
    by_cases h : x = 0
    · simp [h]
    · have hl := gflog_lt x hx h
      simp [h, Nat.mod_eq_of_lt hl, gfantilog_gflog x hx h]
  | succ m ih =>
    intro x hx
    rw [Function.iterate_succ_apply', ih x hx]
    by_cases h : x = 0
    · simp [h, gfmulB]
    · rw [if_neg h, if_neg h]
      have hs : (m + gflog x) % 255 < 255 := Nat.mod_lt _ (by omega)
      have hne := gfantilog_ne_zero _ hs
      rw [gfmulB, if_neg (by push_neg; exact ⟨by omega, hne⟩), gflog_two,
        gflog_gfantilog _ hs]
      congr 1
      omega

theorem gfmulB_eq_iter (a : Nat) (ha : a < 256) (hane : a ≠ 0) :
    ∀ x < 256, gfmulB a x = (gfmulB 2)^[gflog a] x := by
  intro x hx
  rw [gfmulB_iter_form (gflog a) x hx]
  by_cases h : x = 0
  · simp [h, gfmulB]
  · rw [if_neg h, gfmulB, if_neg (by push_neg; exact ⟨hane, h⟩)]

theorem gfmulB_add (a b c : Nat) (ha : a < 256) (hb : b < 256) (hc : c < 256) :
    gfmulB a (b ^^^ c) = gfmulB a b ^^^ gfmulB a c := by
  by_cases h : a = 0
  · simp [h, gfmulB]
  · rw [gfmulB_eq_iter a ha h _ (Nat.xor_lt_two_pow (n := 8) hb hc),
      gfmulB_eq_iter a ha h b hb, gfmulB_eq_iter a ha h c hc]
    exact gfmulB_iter_add _ b c hb hc

theorem gfmulB_comm (a b : Nat) : gfmulB a b = gfmulB b a := by
  unfold gfmulB
  rw [Nat.add_comm (gflog a)]
  by_cases h1 : a = 0 <;> by_cases h2 : b = 0 <;> simp [h1, h2]

theorem gfmulB_one (a : Nat) (ha : a < 256) : gfmulB a 1 = a := by
  by_cases h : a = 0
  · simp [h, gfmulB]
  · rw [gfmulB, if_neg (by push_neg; exact ⟨h, by omega⟩), gflog_one,
      Nat.add_zero, Nat.mod_eq_of_lt (gflog_lt a ha h), gfantilog_gflog a ha h]

theorem gfmulB_ne_zero (a b : Nat) (ha : a ≠ 0) (hb : b ≠ 0) : gfmulB a b ≠ 0 := by
  rw [gfmulB, if_neg (by push_neg; exact ⟨ha, hb⟩)]
  exact gfantilog_ne_zero _ (Nat.mod_lt _ (by omega))

theorem gfmulB_assoc (a b c : Nat) (ha : a < 256) (hb : b < 256) (hc : c < 256) :
    gfmulB (gfmulB a b) c = gfmulB a (gfmulB b c) := by
  by_cases h1 : a = 0
  · simp [h1, gfmulB]
  by_cases h2 : b = 0
  · simp [h2, gfmulB]
  by_cases h3 : c = 0
  · simp [h3, gfmulB]
  have hab := gfmulB_ne_zero a b h1 h2
  have hbc := gfmulB_ne_zero b c h2 h3
  have hsab : (gflog a + gflog b) % 255 < 255 := Nat.mod_lt _ (by omega)
  have hsbc : (gflog b + gflog c) % 255 < 255 := Nat.mod_lt _ (by omega)
  rw [gfmulB, if_neg (by push_neg; exact ⟨hab, h3⟩), gfmulB,
    if_neg (by push_neg; exact ⟨h1, h2⟩), gflog_gfantilog _ hsab,
    gfmulB, if_neg (by push_neg; exact ⟨h1, hbc⟩), gfmulB,
    if_neg (by push_neg; exact ⟨h2, h3⟩), gflog_gfantilog _ hsbc]
  congr 1
  omega

theorem gfinvB_mul (a : Nat) (ha : a < 256) (hane : a ≠ 0) : gfmulB a (gfinvB a) = 1 := by
  have hl := gflog_lt a ha hane
  have hs : (gflog 1 + 255 - gflog a) % 255 < 255 := Nat.mod_lt _ (by omega)
  have hinv_ne : gfinvB a ≠ 0 := by
    rw [gfinvB, if_neg hane, gfdivB, if_neg (by omega)]
    exact gfantilog_ne_zero _ hs
  rw [gfinvB, if_neg hane, gfdivB, if_neg (by omega)] at hinv_ne ⊢
  rw [gfmulB, if_neg (by push_neg; exact ⟨hane, hinv_ne⟩), gflog_gfantilog _ hs,
    gflog_one]
  have : (gflog a + (0 + 255 - gflog a) % 255) % 255 = 0 := by omega
  rw [this, gfantilog_zero]

/-! ## GF(2^8) as a field -/

instance gfAdd : Add GF := ⟨GF.add⟩

instance gfMul : Mul GF := ⟨GF.mul⟩

instance gfNeg : Neg GF := ⟨fun a => a⟩

instance gfCommRing : CommRing GF where
  add := GF.add
  add_assoc a b c := GF.ext_val (Nat.xor_assoc _ _ _)
  zero := (0 : GF)
  zero_add a := GF.ext_val (Nat.zero_xor _)
  add_zero a := GF.ext_val (Nat.xor_zero _)
  add_comm a b := GF.ext_val (Nat.xor_comm _ _)
  mul := GF.mul
  mul_assoc a b c := by
    apply GF.ext_val
    show gfmulB (gfmulB a.val b.val % 256) c.val % 256 =
      gfmulB a.val (gfmulB b.val c.val % 256) % 256
    rw [Nat.mod_eq_of_lt (gfmulB_lt _ _), Nat.mod_eq_of_lt (gfmulB_lt _ _),
      Nat.mod_eq_of_lt (gfmulB_lt _ _), Nat.mod_eq_of_lt (gfmulB_lt _ _),
      gfmulB_assoc a.val b.val c.val a.isLt b.isLt c.isLt]
  one := (1 : GF)
  one_mul a := by
    apply GF.ext_val
    show gfmulB 1 a.val % 256 = a.val
    rw [Nat.mod_eq_of_lt (gfmulB_lt _ _), gfmulB_comm, gfmulB_one a.val a.isLt]
  mul_one a := by
    apply GF.ext_val
    show gfmulB a.val 1 % 256 = a.val
    rw [Nat.mod_eq_of_lt (gfmulB_lt _ _), gfmulB_one a.val a.isLt]
  left_distrib a b c := by
    apply GF.ext_val
    show gfmulB a.val (b.val ^^^ c.val) % 256 =
      (gfmulB a.val b.val % 256) ^^^ (gfmulB a.val c.val % 256)
    rw [Nat.mod_eq_of_lt (gfmulB_lt _ _), Nat.mod_eq_of_lt (gfmulB_lt _ _),
      Nat.mod_eq_of_lt (gfmulB_lt _ _), gfmulB_add _ _ _ a.isLt b.isLt c.isLt]
  right_distrib a b c := by
    apply GF.ext_val
    show gfmulB (a.val ^^^ b.val) c.val % 256 =
      (gfmulB a.val c.val % 256) ^^^ (gfmulB b.val c.val % 256)
    rw [Nat.mod_eq_of_lt (gfmulB_lt _ _), Nat.mod_eq_of_lt (gfmulB_lt _ _),
      Nat.mod_eq_of_lt (gfmulB_lt _ _), gfmulB_comm _ c.val,
      gfmulB_add _ _ _ c.isLt a.isLt b.isLt, gfmulB_comm c.val, gfmulB_comm c.val]
  zero_mul a := GF.ext_val (by show gfmulB 0 a.val % 256 = 0; simp [gfmulB])
  mul_zero a := GF.ext_val (by
    show gfmulB a.val 0 % 256 = 0
    rw [gfmulB_comm]
    simp [gfmulB])
  mul_comm a b := GF.ext_val (by
    show gfmulB a.val b.val % 256 = gfmulB b.val a.val % 256
    rw [gfmulB_comm])
  neg := fun a => a
  neg_add_cancel a := GF.ext_val (Nat.xor_self _)
  nsmul := nsmulRec
  zsmul := zsmulRec

instance gfInv : Inv GF := ⟨GF.inv⟩

instance gfNontrivial : Nontrivial GF :=
  ⟨⟨0, 1, by decide⟩⟩

theorem gfinvB_lt (a : Nat) : gfinvB a < 256 := by
  unfold gfinvB gfdivB
  split
  · omega
  · split
    · omega
    · exact gfantilog_lt _

theorem gf_val_ne_zero {a : GF} (h : a ≠ 0) : a.val ≠ 0 := by
  intro hv
  exact h (GF.ext_val hv)

instance gfField : Field GF where
  mul_inv_cancel a h := by
    apply GF.ext_val
    show gfmulB a.val (gfinvB a.val % 256) % 256 = 1
    rw [Nat.mod_eq_of_lt (gfinvB_lt _), Nat.mod_eq_of_lt (gfmulB_lt _ _),
      gfinvB_mul a.val a.isLt (gf_val_ne_zero h)]
  inv_zero := by
    apply GF.ext_val
    show gfinvB 0 % 256 = 0
    decide
  nnqsmul := _
  nnqsmul_def := fun _ _ => rfl
  qsmul := _
  qsmul_def := fun _ _ => rfl

theorem gf_add_val (a b : GF) : (a + b).val = a.val ^^^ b.val := rfl

theorem gf_mul_val (a b : GF) : (a * b).val = gfmulB a.val b.val := by
  show gfmulB a.val b.val % 256 = gfmulB a.val b.val
  exact Nat.mod_eq_of_lt (gfmulB_lt _ _)

theorem gf_zero_val : (0 : GF).val = 0 := rfl

theorem gf_one_val : (1 : GF).val = 1 := rfl

/-! ## Gauss-Jordan elimination (decoder step 3), over an arbitrary field -/

section GaussJordan

variable {K : Type} [Field K] [DecidableEq K] {k : Nat}

/-- Row-swap elementary matrix: left multiplication exchanges rows c and r. -/
def swapMat (c r : Fin k) : Matrix (Fin k) (Fin k) K :=
  Matrix.of fun i j => if j = Equiv.swap c r i then 1 else 0

/-- Row-scale elementary matrix: left multiplication scales row c by d. -/
def scaleMat (c : Fin k) (d : K) : Matrix (Fin k) (Fin k) K :=
  Matrix.of fun i j => if i = j then (if i = c then d else 1) else 0

/-- Elimination matrix: left multiplication subtracts v i times row c from
every row i other than c. -/
def elimMat (c : Fin k) (v : Fin k → K) : Matrix (Fin k) (Fin k) K :=
  Matrix.of fun i j => (if i = j then 1 else 0) + (if j = c ∧ i ≠ c then -(v i) else 0)

/-- Pivot search in column c: the first row at or below the diagonal holding
a nonzero entry (any nonzero element is an admissible pivot). -/
def findPivot (A : Matrix (Fin k) (Fin k) K) (c : Fin k) : Option (Fin k) :=
  (List.finRange k).find? fun r => decide (c ≤ r ∧ A r c ≠ 0)

/-- The entries of a matrix as a row-major table. -/
def matTable {m n : Nat} (M : Matrix (Fin m) (Fin n) K) : List (List K) :=
  (List.finRange m).map fun i => (List.finRange n).map fun j => M i j

/-- Lookup view of a row-major table as a matrix. -/
def matOfTable {m n : Nat} (t : List (List K)) : Matrix (Fin m) (Fin n) K :=
  Matrix.of fun i j => (t.getD i.val []).getD j.val 0

/-- Rematerialise a matrix from its table: the in-memory row-major matrix
storage of the C implementation (and it keeps evaluation of the elimination
loop linear: the table is computed once and shared, instead of re-deriving
every entry from the whole elimination history). -/
def matForce {m n : Nat} (M : Matrix (Fin m) (Fin n) K) : Matrix (Fin m) (Fin n) K :=
  matOfTable (matTable M)

/-- One Gauss-Jordan column step on the augmented pair (A, B): pivot search,
row swap, pivot normalisation, and elimination of column c in all other rows. -/
def gjStep (c : Fin k) (st : Matrix (Fin k) (Fin k) K × Matrix (Fin k) (Fin k) K) :
    Option (Matrix (Fin k) (Fin k) K × Matrix (Fin k) (Fin k) K) :=
  match findPivot st.1 c with
  | none => none
  | some r =>
    let A1 := swapMat c r * st.1
    let B1 := swapMat c r * st.2
    let A2 := scaleMat c (A1 c c)⁻¹ * A1
    let B2 := scaleMat c (A1 c c)⁻¹ * B1
    some (matForce (elimMat c (fun i => A2 i c) * A2),
      matForce (elimMat c (fun i => A2 i c) * B2))

/-- The elimination loop over a list of column indices. -/
def gjLoop : List (Fin k) → Matrix (Fin k) (Fin k) K × Matrix (Fin k) (Fin k) K →
    Option (Matrix (Fin k) (Fin k) K × Matrix (Fin k) (Fin k) K)
  | [], st => some st
  | c :: cs, st =>
    match gjStep c st with
    | none => none
    | some st2 => gjLoop cs st2

/-- Column indices c, c+1, ..., k-1 as elements of Fin k, by fuel. -/
def colsFromAux (k : Nat) : Nat → Nat → List (Fin k)
  | 0, _ => []
  | fuel + 1, c => if h : c < k then ⟨c, h⟩ :: colsFromAux k fuel (c + 1) else []

/-- Column indices c, c+1, ..., k-1 as elements of Fin k. -/
def colsFrom (k : Nat) (c : Nat) : List (Fin k) :=
  colsFromAux k (k - c) c

/-- Modelled from the spec: invert a k-by-k matrix over GF(2^8) by
Gauss-Jordan elimination; `none` models the `SingularMatrix` failure when a
column has no nonzero pivot. -/
def gaussJordanInv (M : Matrix (Fin k) (Fin k) K) : Option (Matrix (Fin k) (Fin k) K) :=
  (gjLoop (colsFrom k 0) (M, 1)).map Prod.snd

theorem swapMat_mul (c r : Fin k) (A : Matrix (Fin k) (Fin k) K) (i j : Fin k) :
    (swapMat (K := K) c r * A) i j = A (Equiv.swap c r i) j := by
  simp [swapMat, Matrix.mul_apply]

theorem scaleMat_mul (c : Fin k) (d : K) (A : Matrix (Fin k) (Fin k) K) (i j : Fin k) :
    (scaleMat c d * A) i j = (if i = c then d else 1) * A i j := by
  simp [scaleMat, Matrix.mul_apply]

theorem elimMat_mul (c : Fin k) (v : Fin k → K) (A : Matrix (Fin k) (Fin k) K) (i j : Fin k) :
    (elimMat c v * A) i j = if i = c then A c j else A i j - v i * A c j := by
  rw [Matrix.mul_apply]
  by_cases hi : i = c
  · rw [if_pos hi]
    subst hi
    simp [elimMat, add_mul, ite_mul, Finset.sum_add_distrib]
  · rw [if_neg hi]
    simp only [elimMat, Matrix.of_apply, add_mul, Finset.sum_add_distrib]
    have h1 : (∑ t, (if i = t then (1 : K) else 0) * A t j) = A i j := by
      simp [ite_mul]
    have h2 : (∑ t, (if t = c ∧ i ≠ c then -v i else 0) * A t j) = -(v i * A c j) := by
      simp [hi, ite_mul, neg_mul]
    rw [h1, h2, sub_eq_add_neg]

theorem swapMat_swapMat (c r : Fin k) :
    (swapMat c r * swapMat c r : Matrix (Fin k) (Fin k) K) = 1 := by
  ext i j
  rw [swapMat_mul]
  simp [swapMat, Matrix.one_apply, Equiv.swap_apply_self, eq_comm]

theorem scaleMat_scaleMat (c : Fin k) (d e : K) :
    (scaleMat c d * scaleMat c e : Matrix (Fin k) (Fin k) K) = scaleMat c (d * e) := by
  ext i j
  rw [scaleMat_mul]
  by_cases hic : i = c <;> simp [scaleMat, hic]

theorem scaleMat_one (c : Fin k) : (scaleMat c 1 : Matrix (Fin k) (Fin k) K) = 1 := by
  ext i j
  by_cases hij : i = j <;> simp [scaleMat, Matrix.one_apply, hij]

theorem elimMat_elimMat (c : Fin k) (v : Fin k → K) :
    (elimMat c (fun i => -(v i)) * elimMat c v : Matrix (Fin k) (Fin k) K) = 1 := by
  ext i j
  rw [elimMat_mul]
  by_cases hic : i = c
  · rw [if_pos hic]
    subst hic
    simp [elimMat, Matrix.one_apply]
  · rw [if_neg hic]
    by_cases hjc : j = c
    · have hij : i ≠ j := fun h => hic (h.trans hjc)
      simp only [elimMat, Matrix.of_apply, hjc, hic, Matrix.one_apply, hij,
        if_false, ite_true, and_true, not_false_iff, if_true, eq_self_iff_true]
      simp [hic]
    · have hcj : c ≠ j := fun h => hjc h.symm
      simp [elimMat, hic, hjc, hcj, Matrix.one_apply]

end GaussJordan

section GaussJordanSpec

variable {K : Type} [Field K] [DecidableEq K] {k : Nat}

theorem matForce_eq {m n : Nat} (M : Matrix (Fin m) (Fin n) K) : matForce M = M := by
  ext i j
  rw [matForce, matOfTable, Matrix.of_apply, matTable]
  have h1 : (((List.finRange m).map fun i2 => (List.finRange n).map fun j2 => M i2 j2).getD
      i.val []) = (List.finRange n).map fun j2 => M i j2 := by
    rw [List.getD_eq_getElem?_getD, List.getElem?_map]
    rw [List.getElem?_eq_getElem (by simpa using i.isLt)]
    simp
  rw [h1, List.getD_eq_getElem?_getD, List.getElem?_map,
    List.getElem?_eq_getElem (by simpa using j.isLt)]
  simp

theorem findPivot_none_spec {A : Matrix (Fin k) (Fin k) K} {c : Fin k}
    (h : findPivot A c = none) : ∀ r : Fin k, c ≤ r → A r c = 0 := by
  intro r hcr
  by_contra hne
  have hmem : r ∈ List.finRange k := List.mem_finRange r
  have h2 := List.find?_eq_none.mp h r hmem
  simp only [decide_eq_true_eq] at h2
  exact h2 ⟨hcr, hne⟩

theorem findPivot_some_spec {A : Matrix (Fin k) (Fin k) K} {c r : Fin k}
    (h : findPivot A c = some r) : c ≤ r ∧ A r c ≠ 0 := by
  have h2 := List.find?_some h
  simpa using h2

theorem swapMat_pair (c r : Fin k) (X : Matrix (Fin k) (Fin k) K) :
    swapMat c r * (swapMat c r * X) = X := by
  rw [← Matrix.mul_assoc, swapMat_swapMat, Matrix.one_mul]

theorem scaleMat_pair (c : Fin k) {d : K} (hd : d ≠ 0) (X : Matrix (Fin k) (Fin k) K) :
    scaleMat c d * (scaleMat c d⁻¹ * X) = X := by
  rw [← Matrix.mul_assoc, scaleMat_scaleMat, mul_inv_cancel₀ hd, scaleMat_one,
    Matrix.one_mul]

theorem elimMat_pair (c : Fin k) (v : Fin k → K) (X : Matrix (Fin k) (Fin k) K) :
    elimMat c (fun i => -(v i)) * (elimMat c v * X) = X := by
  rw [← Matrix.mul_assoc, elimMat_elimMat, Matrix.one_mul]

theorem mulVec_kernel_not_isUnit {M : Matrix (Fin k) (Fin k) K} {x : Fin k → K}
    (hx : x ≠ 0) (hMx : M.mulVec x = 0) : ¬ IsUnit M := by
  intro hU
  have hdet := (Matrix.isUnit_iff_isUnit_det M).mp hU
  have hinv := Matrix.nonsing_inv_mul M hdet
  apply hx
  calc x = (1 : Matrix (Fin k) (Fin k) K).mulVec x := by rw [Matrix.one_mulVec]
    _ = (M⁻¹ * M).mulVec x := by rw [hinv]
    _ = M⁻¹.mulVec (M.mulVec x) := by rw [Matrix.mulVec_mulVec]
    _ = M⁻¹.mulVec 0 := by rw [hMx]
    _ = 0 := Matrix.mulVec_zero _

theorem gjLoop_spec (M : Matrix (Fin k) (Fin k) K) :
    ∀ fuel c0, k - c0 = fuel → ∀ A B : Matrix (Fin k) (Fin k) K,
    B * M = A →
    (∃ C : Matrix (Fin k) (Fin k) K, C * B = 1) →
    (∀ i j : Fin k, (j : Nat) < c0 → A i j = if i = j then 1 else 0) →
    (match gjLoop (colsFrom k c0) (A, B) with
     | some st => st.1 = 1 ∧ st.2 * M = 1
     | none => ¬ IsUnit M) := by
  intro fuel
  induction fuel with
  | zero =>
    intro c0 hc0 A B hBM hC hid
    rw [colsFrom, hc0]
    have hA : A = 1 := by
      ext i j
      rw [hid i j (by omega), Matrix.one_apply]
    show A = 1 ∧ B * M = 1
    exact ⟨hA, by rw [hBM, hA]⟩
  | succ fuel ih =>
    intro c0 hc0 A B hBM hC hid
    have hck : c0 < k := by omega
    have hcols : colsFrom k c0 = ⟨c0, hck⟩ :: colsFrom k (c0 + 1) := by
      rw [colsFrom, hc0, colsFromAux, dif_pos hck, colsFrom,
        (by omega : k - (c0 + 1) = fuel)]
    rw [hcols]
    set c : Fin k := ⟨c0, hck⟩ with hcdef
    cases hpiv : findPivot A c with
    | none =>
      have hzero : ∀ r : Fin k, c ≤ r → A r c = 0 := findPivot_none_spec hpiv
      have hstep : gjLoop (c :: colsFrom k (c0 + 1)) (A, B) = none := by
        simp [gjLoop, gjStep, hpiv]
      rw [hstep]
      obtain ⟨C, hCB⟩ := hC
      have hMCA : M = C * A := by
        rw [← hBM, ← Matrix.mul_assoc, hCB, Matrix.one_mul]
      set x : Fin k → K :=
        fun jj => if jj = c then 1 else if (jj : Nat) < c0 then -(A jj c) else 0 with hxdef
      have hterm : ∀ i j : Fin k, A i j * x j =
          (if j = c then A i c else 0) +
          (if j ≠ c ∧ (j : Nat) < c0 then (if i = j then 1 else 0) * -(A j c) else 0) := by
        intro i j
        by_cases h1 : j = c
        · have hxj : x j = 1 := by
            simp only [hxdef]
            rw [if_pos h1]
          rw [hxj, mul_one, if_pos h1, if_neg (fun h => h.1 h1), add_zero, h1]
        · by_cases h2 : (j : Nat) < c0
          · have hxj : x j = -(A j c) := by
              simp only [hxdef]
              rw [if_neg h1, if_pos h2]
            rw [hxj, hid i j h2, if_neg h1,
              if_pos (show j ≠ c ∧ (j : Nat) < c0 from ⟨h1, h2⟩), zero_add]
          · have hxj : x j = 0 := by
              simp only [hxdef]
              rw [if_neg h1, if_neg h2]
            rw [hxj, mul_zero, if_neg h1, if_neg (fun h => h2 h.2), add_zero]
      have hAx : A.mulVec x = 0 := by
        funext i
        show (∑ j, A i j * x j) = 0
        rw [Finset.sum_congr rfl (fun j _ => hterm i j), Finset.sum_add_distrib]
        have hs1 : (∑ j : Fin k, if j = c then A i c else 0) = A i c := by
          simp
        have hs2 : (∑ j : Fin k, if j ≠ c ∧ (j : Nat) < c0 then
            (if i = j then (1 : K) else 0) * -(A j c) else 0) =
            (if i ≠ c ∧ (i : Nat) < c0 then -(A i c) else 0) := by
          rw [Finset.sum_eq_single i]
          · by_cases h1 : i ≠ c ∧ (i : Nat) < c0
            · rw [if_pos h1, if_pos h1, if_pos rfl, one_mul]
            · rw [if_neg h1, if_neg h1]
          · intro j _ hji
            by_cases h1 : j ≠ c ∧ (j : Nat) < c0
            · rw [if_pos h1, if_neg (fun h => hji h.symm), zero_mul]
            · rw [if_neg h1]
          · intro hmem
            exact absurd (Finset.mem_univ i) hmem
        rw [hs1, hs2]
        by_cases h1 : (i : Nat) < c0
        · have hine : i ≠ c := by
            intro h
            rw [h] at h1
            simp [hcdef] at h1
          rw [if_pos ⟨hine, h1⟩, add_neg_cancel]
        · have hci : c ≤ i := by
            rw [Fin.le_def]
            simp [hcdef]
            omega
          rw [if_neg (fun h => h1 h.2), hzero i hci, add_zero]
      have hx : x ≠ 0 := by
        intro h0
        have := congrFun h0 c
        rw [hxdef] at this
        simp at this
      have hMx : M.mulVec x = 0 := by
        rw [hMCA, ← Matrix.mulVec_mulVec, hAx, Matrix.mulVec_zero]
      exact mulVec_kernel_not_isUnit hx hMx
    | some r =>
      obtain ⟨hcr, hpne⟩ := findPivot_some_spec hpiv
      set A1 : Matrix (Fin k) (Fin k) K := swapMat c r * A with hA1
      set B1 : Matrix (Fin k) (Fin k) K := swapMat c r * B with hB1
      have hA1cc : A1 c c = A r c := by
        rw [hA1, swapMat_mul, Equiv.swap_apply_left]
      have hd : A1 c c ≠ 0 := by
        rw [hA1cc]
        exact hpne
      set A2 : Matrix (Fin k) (Fin k) K := scaleMat c (A1 c c)⁻¹ * A1 with hA2
      set B2 : Matrix (Fin k) (Fin k) K := scaleMat c (A1 c c)⁻¹ * B1 with hB2
      set A3 : Matrix (Fin k) (Fin k) K := elimMat c (fun i => A2 i c) * A2 with hA3
      set B3 : Matrix (Fin k) (Fin k) K := elimMat c (fun i => A2 i c) * B2 with hB3
      have hstep : gjLoop (c :: colsFrom k (c0 + 1)) (A, B) =
          gjLoop (colsFrom k (c0 + 1)) (matForce A3, matForce B3) := by
        simp only [gjLoop, gjStep, hpiv]
      rw [hstep, matForce_eq, matForce_eq]
      have hA2cc : A2 c c = 1 := by
        rw [hA2, scaleMat_mul, if_pos rfl, inv_mul_cancel₀ hd]
      -- invariant 1: B3 * M = A3
      have hBM3 : B3 * M = A3 := by
        rw [hB3, hA3, hB2, hA2, hB1, hA1]
        simp only [Matrix.mul_assoc, hBM]
      -- invariant 2: B3 has a left inverse
      have hC3 : ∃ C : Matrix (Fin k) (Fin k) K, C * B3 = 1 := by
        obtain ⟨C, hCB⟩ := hC
        refine ⟨((C * swapMat c r) * scaleMat c (A1 c c)) *
          elimMat c (fun i => -(A2 i c)), ?_⟩
        rw [hB3, hB2, hB1]
        rw [Matrix.mul_assoc (C * swapMat c r * scaleMat c (A1 c c))]
        rw [elimMat_pair]
        rw [Matrix.mul_assoc (C * swapMat c r)]
        rw [scaleMat_pair c hd]
        rw [Matrix.mul_assoc C]
        rw [swapMat_pair]
        exact hCB
      -- invariant 3: columns 0..c0 of A3 are identity columns
      have hid3 : ∀ i j : Fin k, (j : Nat) < c0 + 1 → A3 i j = if i = j then 1 else 0 := by
        intro i j hj
        by_cases hjc : j = c
        · subst hjc
          rw [hA3, elimMat_mul]
          by_cases hic : i = c
          · rw [if_pos hic, hA2cc, hic, if_pos rfl]
          · rw [if_neg hic, hA2cc, mul_one, sub_self, if_neg hic]
        · have hjc0 : (j : Nat) < c0 := by
            rcases Nat.lt_succ_iff_lt_or_eq.mp hj with h | h
            · exact h
            · exact absurd (Fin.ext h : j = c) hjc
          have hcj : c ≠ j := fun h => hjc h.symm
          have hcr2 : c0 ≤ (r : Nat) := hcr
          have hrj : r ≠ j := by
            intro h
            rw [← h] at hjc0
            omega
          have hA1j : ∀ i : Fin k, A1 i j = if i = j then 1 else 0 := by
            intro i
            rw [hA1, swapMat_mul]
            by_cases hic : i = c
            · rw [hic, Equiv.swap_apply_left, hid r j hjc0, if_neg hrj, if_neg hcj]
            · by_cases hir : i = r
              · rw [hir, Equiv.swap_apply_right, hid c j hjc0, if_neg hcj, if_neg hrj]
              · rw [Equiv.swap_apply_of_ne_of_ne hic hir, hid i j hjc0]
          have hA2j : ∀ i : Fin k, A2 i j = if i = j then 1 else 0 := by
            intro i
            rw [hA2, scaleMat_mul, hA1j i]
            by_cases hic : i = c
            · rw [if_pos hic, hic, if_neg hcj, mul_zero]
            · rw [if_neg hic, one_mul]
          rw [hA3, elimMat_mul]
          by_cases hic : i = c
          · rw [if_pos hic, hA2j c, if_neg hcj, hic, if_neg hcj]
          · rw [if_neg hic, hA2j i, hA2j c, if_neg hcj, mul_zero, sub_zero]
      exact ih (c0 + 1) (by omega) A3 B3 hBM3 hC3 hid3

end GaussJordanSpec

section GaussJordanCor

variable {K : Type} [Field K] [DecidableEq K] {k : Nat}

theorem gaussJordanInv_spec (M : Matrix (Fin k) (Fin k) K) :
    (match gaussJordanInv M with
     | some B => B * M = 1 ∧ M * B = 1
     | none => ¬ IsUnit M) := by
  have hs := gjLoop_spec M (k - 0) 0 rfl M 1 (Matrix.one_mul M) ⟨1, Matrix.one_mul 1⟩
    (fun i j hj => absurd hj (Nat.not_lt_zero _))
  unfold gaussJordanInv
  cases hgl : gjLoop (colsFrom k 0) (M, (1 : Matrix (Fin k) (Fin k) K)) with
  | none =>
    rw [hgl] at hs
    exact hs
  | some st =>
    rw [hgl] at hs
    obtain ⟨h1, h2⟩ := hs
    exact ⟨h2, Matrix.mul_eq_one_comm.mp h2⟩

theorem gaussJordanInv_some_left {M B : Matrix (Fin k) (Fin k) K}
    (h : gaussJordanInv M = some B) : B * M = 1 := by
  have hs := gaussJordanInv_spec M
  rw [h] at hs
  exact hs.1

theorem gaussJordanInv_some_right {M B : Matrix (Fin k) (Fin k) K}
    (h : gaussJordanInv M = some B) : M * B = 1 := by
  have hs := gaussJordanInv_spec M
  rw [h] at hs
  exact hs.2

theorem gaussJordanInv_isUnit {M : Matrix (Fin k) (Fin k) K} (h : IsUnit M) :
    ∃ B, gaussJordanInv M = some B := by
  have hs := gaussJordanInv_spec M
  cases hgj : gaussJordanInv M with
  | none =>
    rw [hgj] at hs
    exact absurd h hs
  | some B => exact ⟨B, rfl⟩

end GaussJordanCor

/-! ## Error taxonomy and field-engine entry points -/

/-- Error taxonomy of the codec specification. -/
inductive RSError where
  | InvalidParameters
  | InvalidIndex
  | InvalidLength
  | LengthMismatch
  | UnrecoverableErasure
  | SingularMatrix
  | DivisionByZero
deriving DecidableEq

/-- Modelled from the spec: field multiplication entry point. -/
def gf_multiply (a b : GF) : GF := GF.mul a b

/-- Modelled from the spec: field addition/subtraction entry point (XOR). -/
def gf_add (a b : GF) : GF := GF.add a b

/-- Modelled from the spec: `divide(a,b)` fails with `DivisionByZero` when
b = 0, else `antilog[(log[a]-log[b]+255) mod 255]`. -/
def gf_divide (a b : GF) : Except RSError GF :=
  if b = 0 then Except.error RSError.DivisionByZero
  else Except.ok (GF.ofNat (gfdivB a.val b.val))

/-! ## Code descriptor and matrix builder -/

/-- The code descriptor of `reed_solomon.h`: RS(n, k) plus the generator
matrix (the recovery-matrix pointer RM of the struct is scratch space for
decode and carries no abstract state). -/
structure pgm_rs_t where
  n : Nat
  k : Nat
  GM : Matrix (Fin n) (Fin k) GF

/-- Default n of the header: 255. -/
def PGM_RS_DEFAULT_N : Nat := 255

instance exceptDecEq {ε α : Type} [DecidableEq ε] [DecidableEq α] :
    DecidableEq (Except ε α) := fun a b =>
  match a, b with
  | Except.error e, Except.error f => decidable_of_iff (e = f) (by simp)
  | Except.ok x, Except.ok y => decidable_of_iff (x = y) (by simp)
  | Except.error _, Except.ok _ => isFalse (by simp)
  | Except.ok _, Except.error _ => isFalse (by simp)

instance matrixDecEq {m n : Nat} : DecidableEq (Matrix (Fin m) (Fin n) GF) := fun M N =>
  decidable_of_iff (∀ i j, M i j = N i j)
    ⟨fun h => by ext i j; exact h i j, fun h i j => by rw [h]⟩

instance rsDecEq : DecidableEq pgm_rs_t := fun a b => by
  obtain ⟨n1, k1, G1⟩ := a
  obtain ⟨n2, k2, G2⟩ := b
  by_cases hn : n1 = n2
  · subst hn
    by_cases hk : k1 = k2
    · subst hk
      exact decidable_of_iff (G1 = G2)
        ⟨fun h => by rw [h], fun h => by cases h; rfl⟩
    · exact isFalse fun h => hk (congrArg pgm_rs_t.k h)
  · exact isFalse fun h => hn (congrArg pgm_rs_t.n h)

/-- Distinct nonzero Vandermonde evaluation points: e_i = i + 1. -/
def vanElt (i : Nat) : GF := GF.ofNat (i + 1)

/-- The n-by-k Vandermonde matrix with rows e_i^0 .. e_i^(k-1). -/
def vanV (n k : Nat) : Matrix (Fin n) (Fin k) GF :=
  Matrix.of fun i j => vanElt i.val ^ (j : Nat)

/-- The top k-by-k block of the Vandermonde matrix. -/
def vanT (k : Nat) : Matrix (Fin k) (Fin k) GF :=
  Matrix.of fun i j => vanElt i.val ^ (j : Nat)

/-- Modelled from the spec: `create(n,k)` fails with `InvalidParameters`
unless 2 <= k <= n <= 255; otherwise builds the n-by-k Vandermonde matrix
with rows e_i^0 .. e_i^(k-1), e_i = i+1, and brings it to systematic form by
right-multiplying with the inverse of its own top k-by-k block. -/
def pgm_rs_create (n k : Nat) : Except RSError pgm_rs_t :=
  if 2 ≤ k ∧ k ≤ n ∧ n ≤ 255 then
    match gaussJordanInv (vanT k) with
    | none => Except.error RSError.SingularMatrix
    | some Tinv => Except.ok ⟨n, k, vanV n k * Tinv⟩
  else Except.error RSError.InvalidParameters

/-! ## Encoder -/

/-- Modelled from the spec: `encode` produces the single parity block for
`parityIndex` in [k, n-1]: for every byte position b < L the output byte is
the XOR over j = 0..k-1 of multiply(GM[parityIndex][j], sourceBlocks[j][b]).
Fails with `InvalidIndex` when the parity index is out of range and with
`InvalidLength` on mismatched source block lengths. -/
def pgm_rs_encode (rs : pgm_rs_t) (src : List (List GF)) (pidx : Nat) (L : Nat) :
    Except RSError (List GF) :=
  if hp : rs.k ≤ pidx ∧ pidx < rs.n then
    if src.length = rs.k ∧ ∀ blk ∈ src, blk.length = L then
      Except.ok ((List.range L).map fun b =>
        ∑ j : Fin rs.k, rs.GM ⟨pidx, hp.2⟩ j * ((src.getD j.val []).getD b 0))
    else Except.error RSError.InvalidLength
  else Except.error RSError.InvalidIndex

/-- The C call writes the parity block through the output pointer into the
caller's block array, leaving the k source blocks untouched. -/
def pgm_rs_encode_inplace (rs : pgm_rs_t) (blocks : List (List GF)) (pidx : Nat) (L : Nat) :
    Except RSError (List (List GF)) :=
  (pgm_rs_encode rs (blocks.take rs.k) pidx L).map fun out => blocks.set pidx out

/-! ## Decoder (shared core and its two entry variants) -/

/-- Erased source positions: the invalid logical positions among 0..k-1. -/
def erasedList (kk : Nat) (valid : Nat → Bool) : List Nat :=
  (List.range kk).filter fun i => !(valid i)

/-- Surviving parity positions k..n-1, in ascending order. -/
def survParity (n kk : Nat) (valid : Nat → Bool) : List Nat :=
  ((List.range (n - kk)).map fun t => kk + t).filter valid

/-- The surviving parity index substituted for an erased source position:
erased positions are paired with the lowest available parity indices first. -/
def parityFor (E P : List Nat) (i : Nat) : Option Nat := P.get? (E.indexOf i)

/-- Row p of the generator matrix as a function (0 outside the range). -/
def gmRow (rs : pgm_rs_t) (p : Nat) : Fin rs.k → GF :=
  fun j => if hp : p < rs.n then rs.GM ⟨p, hp⟩ j else 0

/-- Modelled from the spec, decoder step 2: the k-by-k decoding matrix with
identity rows at surviving source positions and the substituted surviving
parity rows at erased source positions. -/
def decodeMatrix (rs : pgm_rs_t) (valid : Nat → Bool) : Matrix (Fin rs.k) (Fin rs.k) GF :=
  Matrix.of fun i j =>
    if valid i.val then (if i = j then 1 else 0)
    else
      match parityFor (erasedList rs.k valid) (survParity rs.n rs.k valid) i.val with
      | some p => gmRow rs p j
      | none => 0

/-- The vector of received blocks feeding reconstruction: the surviving
source block at surviving positions, the substituted parity block at erased
positions. -/
def dataVec (rs : pgm_rs_t) (getBlk : Nat → List GF) (valid : Nat → Bool) : Fin rs.k → List GF :=
  fun i =>
    if valid i.val then getBlk i.val
    else
      match parityFor (erasedList rs.k valid) (survParity rs.n rs.k valid) i.val with
      | some p => getBlk p
      | none => []

/-- The length validation shared by both decode variants: every non-erased
supplied block among positions 0..n-1 must have length L. -/
def lengthsOk (n : Nat) (getBlk : Nat → List GF) (valid : Nat → Bool) (L : Nat) : Bool :=
  (List.range n).all fun i => !(valid i) || ((getBlk i).length == L)

/-- Modelled from the spec: the decoder algorithm shared by both entry
variants.  Step 1 fails with `UnrecoverableErasure` when more than n-k
source positions are erased; both variants fail with `LengthMismatch` when a
non-erased supplied block does not have length L; step 3 inverts the
decoding matrix (`SingularMatrix` when Gauss-Jordan finds no pivot); step 4
reconstructs each erased source block per byte position from the inverse
matrix row and the received blocks, leaving surviving blocks untouched. -/
def pgm_rs_decode_core (rs : pgm_rs_t) (getBlk : Nat → List GF) (valid : Nat → Bool)
    (L : Nat) : Except RSError (List (List GF)) :=
  if (erasedList rs.k valid).length > rs.n - rs.k then
    Except.error RSError.UnrecoverableErasure
  else if lengthsOk rs.n getBlk valid L then
    match gaussJordanInv (decodeMatrix rs valid) with
    | none => Except.error RSError.SingularMatrix
    | some Dinv =>
      Except.ok ((List.finRange rs.k).map fun i =>
        if valid i.val then getBlk i.val
        else (List.range L).map fun b =>
          ∑ j : Fin rs.k, Dinv i j * ((dataVec rs getBlk valid j).getD b 0))
  else Except.error RSError.LengthMismatch

/-- Modelled from the spec: parity-inline layout: all n blocks live in one
array indexed 0..n-1 directly by the erasure map. -/
def pgm_rs_decode_parity_inline (rs : pgm_rs_t) (blocks : List (List GF))
    (emap : List Bool) (L : Nat) : Except RSError (List (List GF)) :=
  pgm_rs_decode_core rs (fun i => blocks.getD i []) (fun i => emap.getD i false) L

/-- Modelled from the spec: parity-appended layout: k source blocks and n-k
parity blocks live in two regions; logical position i is translated to the
source region for i < k and to offset i-k of the parity region otherwise. -/
def pgm_rs_decode_parity_appended (rs : pgm_rs_t) (srcRegion parityRegion : List (List GF))
    (emap : List Bool) (L : Nat) : Except RSError (List (List GF)) :=
  pgm_rs_decode_core rs
    (fun i => if i < rs.k then srcRegion.getD i [] else parityRegion.getD (i - rs.k) [])
    (fun i => emap.getD i false) L

/-! ## The C-level interface of reed_solomon.h (all operations return void) -/

/-- The header's `pgm_rs_create`: takes two `uint8_t` parameters and returns
void; the descriptor is communicated through the out-pointer, never through
the return value. -/
def pgm_rs_create_c (n k : Fin 256) : Unit × Except RSError pgm_rs_t :=
  ((), pgm_rs_create n.val k.val)

/-- The header's `pgm_rs_destroy`: returns void. -/
def pgm_rs_destroy_c (rs : pgm_rs_t) : Unit := ()

/-- The header's `pgm_rs_encode`: parity index is a `uint8_t`, the block
length a `uint16_t`; returns void, output through the out-pointer. -/
def pgm_rs_encode_c (rs : pgm_rs_t) (src : List (List GF)) (pidx : Fin 256)
    (L : Fin 65536) : Unit × Except RSError (List GF) :=
  ((), pgm_rs_encode rs src pidx.val L.val)

/-- The header's `pgm_rs_decode_parity_inline`: block length is a `uint16_t`;
returns void. -/
def pgm_rs_decode_parity_inline_c (rs : pgm_rs_t) (blocks : List (List GF))
    (emap : List Bool) (L : Fin 65536) : Unit × Except RSError (List (List GF)) :=
  ((), pgm_rs_decode_parity_inline rs blocks emap L.val)

/-- The header's `pgm_rs_decode_parity_appended`: block length is a
`uint16_t`; returns void. -/
def pgm_rs_decode_parity_appended_c (rs : pgm_rs_t) (srcRegion parityRegion : List (List GF))
    (emap : List Bool) (L : Fin 65536) : Unit × Except RSError (List (List GF)) :=
  ((), pgm_rs_decode_parity_appended rs srcRegion parityRegion emap L.val)

/-! ## Facts about the codec model -/

theorem lengthsOk_iff {n : Nat} {getBlk : Nat → List GF} {valid : Nat → Bool} {L : Nat} :
    lengthsOk n getBlk valid L = true ↔
      ∀ i < n, valid i = true → (getBlk i).length = L := by
  unfold lengthsOk
  rw [List.all_eq_true]
  constructor
  · intro h i hi hv
    have h2 := h i (List.mem_range.mpr hi)
    rw [hv] at h2
    simpa using h2
  · intro h i hi
    by_cases hv : valid i = true
    · have h2 := h i (List.mem_range.mp hi) hv
      simp [hv, h2]
    · rw [Bool.not_eq_true] at hv
      simp [hv]

theorem pgm_rs_create_ok_inv {n k : Nat} {rs : pgm_rs_t}
    (h : pgm_rs_create n k = Except.ok rs) :
    (2 ≤ k ∧ k ≤ n ∧ n ≤ 255) ∧
      ∃ Tinv : Matrix (Fin k) (Fin k) GF,
        gaussJordanInv (vanT k) = some Tinv ∧ rs = ⟨n, k, vanV n k * Tinv⟩ := by
  unfold pgm_rs_create at h
  by_cases hp : 2 ≤ k ∧ k ≤ n ∧ n ≤ 255
  · rw [if_pos hp] at h
    cases hgj : gaussJordanInv (vanT k) with
    | none =>
      rw [hgj] at h
      exact absurd h (by simp)
    | some Tinv =>
      rw [hgj] at h
      injection h with h2
      exact ⟨hp, Tinv, rfl, h2.symm⟩
  · rw [if_neg hp] at h
    exact absurd h (by simp)

theorem pgm_rs_create_invalid_iff {n k : Nat} :
    pgm_rs_create n k = Except.error RSError.InvalidParameters ↔
      ¬ (2 ≤ k ∧ k ≤ n ∧ n ≤ 255) := by
  unfold pgm_rs_create
  by_cases hp : 2 ≤ k ∧ k ≤ n ∧ n ≤ 255
  · rw [if_pos hp]
    cases gaussJordanInv (vanT k) with
    | none => simp [hp]
    | some Tinv => simp [hp]
  · rw [if_neg hp]
    simp [hp]

theorem vanElt_val {a : Nat} (ha : a < 255) : (vanElt a).val = a + 1 := by
  unfold vanElt GF.ofNat
  simp
  omega

theorem vandermonde_sub_isUnit {kk : Nat} (e : Fin kk → GF) (he : Function.Injective e) :
    IsUnit (Matrix.of fun i j => e i ^ (j : Nat) : Matrix (Fin kk) (Fin kk) GF) := by
  rw [Matrix.isUnit_iff_isUnit_det, isUnit_iff_ne_zero]
  have h : (Matrix.of fun i j => e i ^ (j : Nat) : Matrix (Fin kk) (Fin kk) GF) =
      Matrix.vandermonde e := rfl
  rw [h]
  exact Matrix.det_vandermonde_ne_zero_iff.mpr he

theorem vanT_isUnit {k : Nat} (hk : k ≤ 255) : IsUnit (vanT k) := by
  apply vandermonde_sub_isUnit
  intro a b hab
  have ha := vanElt_val (a := a.val) (by omega)
  have hb := vanElt_val (a := b.val) (by omega)
  apply Fin.ext
  have h2 : (vanElt a.val).val = (vanElt b.val).val := congrArg GF.val hab
  omega

theorem decode_core_unrecoverable {rs : pgm_rs_t} {getBlk valid} {L : Nat}
    (h : (erasedList rs.k valid).length > rs.n - rs.k) :
    pgm_rs_decode_core rs getBlk valid L = Except.error RSError.UnrecoverableErasure := by
  unfold pgm_rs_decode_core
  rw [if_pos h]

theorem decode_core_unrecoverable_iff {rs : pgm_rs_t} {getBlk valid} {L : Nat} :
    pgm_rs_decode_core rs getBlk valid L = Except.error RSError.UnrecoverableErasure ↔
      (erasedList rs.k valid).length > rs.n - rs.k := by
  constructor
  · intro h
    by_contra hn
    unfold pgm_rs_decode_core at h
    rw [if_neg hn] at h
    by_cases h2 : lengthsOk rs.n getBlk valid L = true
    · rw [if_pos h2] at h
      cases hgj : gaussJordanInv (decodeMatrix rs valid) with
      | none =>
        rw [hgj] at h
        simp at h
      | some Dinv =>
        rw [hgj] at h
        simp at h
    · rw [if_neg h2] at h
      simp at h
  · exact decode_core_unrecoverable

theorem decode_core_lengthMismatch {rs : pgm_rs_t} {getBlk valid} {L : Nat}
    (h1 : ¬ (erasedList rs.k valid).length > rs.n - rs.k)
    (h2 : lengthsOk rs.n getBlk valid L = false) :
    pgm_rs_decode_core rs getBlk valid L = Except.error RSError.LengthMismatch := by
  unfold pgm_rs_decode_core
  rw [if_neg h1, if_neg (by rw [h2]; exact Bool.false_ne_true)]

theorem encode_invalidIndex {rs : pgm_rs_t} {src} {pidx L : Nat}
    (h : ¬ (rs.k ≤ pidx ∧ pidx < rs.n)) :
    pgm_rs_encode rs src pidx L = Except.error RSError.InvalidIndex := by
  unfold pgm_rs_encode
  rw [dif_neg h]

theorem encode_ok_inv {rs : pgm_rs_t} {src} {pidx L : Nat} {out}
    (h : pgm_rs_encode rs src pidx L = Except.ok out) :
    ∃ hp : rs.k ≤ pidx ∧ pidx < rs.n,
      (src.length = rs.k ∧ ∀ blk ∈ src, blk.length = L) ∧
      out = (List.range L).map fun b =>
        ∑ j : Fin rs.k, rs.GM ⟨pidx, hp.2⟩ j * ((src.getD j.val []).getD b 0) := by
  unfold pgm_rs_encode at h
  by_cases hp : rs.k ≤ pidx ∧ pidx < rs.n
  · rw [dif_pos hp] at h
    by_cases hl : src.length = rs.k ∧ ∀ blk ∈ src, blk.length = L
    · rw [if_pos hl] at h
      injection h with h2
      exact ⟨hp, hl, h2.symm⟩
    · rw [if_neg hl] at h
      exact absurd h (by simp)
  · rw [dif_neg hp] at h
    exact absurd h (by simp)

theorem getD_map_range {α : Type} (f : Nat → α) {L b : Nat} (hb : b < L) (d : α) :
    ((List.range L).map f).getD b d = f b := by
  rw [List.getD_eq_getElem?_getD, List.getElem?_map, List.getElem?_range hb]
  rfl

theorem mem_erasedList {k : Nat} {valid : Nat → Bool} {i : Nat} :
    i ∈ erasedList k valid ↔ i < k ∧ valid i = false := by
  unfold erasedList
  rw [List.mem_filter, List.mem_range]
  simp

theorem erasedList_nodup (k : Nat) (valid : Nat → Bool) : (erasedList k valid).Nodup :=
  List.Nodup.filter _ (List.nodup_range k)

theorem mem_survParity {n k : Nat} {valid : Nat → Bool} {p : Nat} :
    p ∈ survParity n k valid ↔ (∃ t < n - k, p = k + t) ∧ valid p = true := by
  unfold survParity
  rw [List.mem_filter, List.mem_map]
  constructor
  · rintro ⟨⟨t, ht, rfl⟩, hv⟩
    exact ⟨⟨t, List.mem_range.mp ht, rfl⟩, hv⟩
  · rintro ⟨⟨t, ht, rfl⟩, hv⟩
    exact ⟨⟨t, List.mem_range.mpr ht, rfl⟩, hv⟩

theorem survParity_lt_n {n k : Nat} {valid : Nat → Bool} {p : Nat}
    (hk : k ≤ n) (h : p ∈ survParity n k valid) : p < n := by
  rcases mem_survParity.mp h with ⟨⟨t, ht, rfl⟩, _⟩
  omega

theorem list_all_congr {α : Type} {l : List α} {f g : α → Bool}
    (h : ∀ x ∈ l, f x = g x) : l.all f = l.all g := by
  induction l with
  | nil => rfl
  | cons a l ih =>
    rw [List.all_cons, List.all_cons, h a (List.mem_cons_self a l),
      ih fun x hx => h x (List.mem_cons_of_mem a hx)]

theorem dataVec_congr {rs : pgm_rs_t} {g1 g2 : Nat → List GF} (valid : Nat → Bool)
    (hkn : rs.k ≤ rs.n) (h : ∀ i < rs.n, g1 i = g2 i) :
    dataVec rs g1 valid = dataVec rs g2 valid := by
  funext i
  unfold dataVec
  by_cases hv : valid i.val = true
  · rw [if_pos hv, if_pos hv, h i.val (lt_of_lt_of_le i.isLt hkn)]
  · rw [if_neg hv, if_neg hv]
    cases hpf : parityFor (erasedList rs.k valid) (survParity rs.n rs.k valid) i.val with
    | none => rfl
    | some p =>
      have hmem : p ∈ survParity rs.n rs.k valid := by
        unfold parityFor at hpf
        rw [List.get?_eq_getElem?] at hpf
        exact List.getElem?_mem hpf
      simp only [hpf]
      rw [h p (survParity_lt_n hkn hmem)]

theorem decode_core_congr {rs : pgm_rs_t} {g1 g2 : Nat → List GF} {valid : Nat → Bool}
    {L : Nat} (hkn : rs.k ≤ rs.n) (h : ∀ i < rs.n, g1 i = g2 i) :
    pgm_rs_decode_core rs g1 valid L = pgm_rs_decode_core rs g2 valid L := by
  unfold pgm_rs_decode_core
  have hlen : lengthsOk rs.n g1 valid L = lengthsOk rs.n g2 valid L := by
    unfold lengthsOk
    exact list_all_congr fun x hx => by rw [h x (List.mem_range.mp hx)]
  rw [hlen]
  by_cases h1 : (erasedList rs.k valid).length > rs.n - rs.k
  · rw [if_pos h1, if_pos h1]
  rw [if_neg h1, if_neg h1]
  by_cases h2 : lengthsOk rs.n g2 valid L = true
  · rw [if_pos h2, if_pos h2]
    cases hgj : gaussJordanInv (decodeMatrix rs valid) with
    | none => rfl
    | some Dinv =>
      have hdv := dataVec_congr valid hkn h
      refine congrArg Except.ok ?_
      apply List.map_congr_left
      intro i hi
      by_cases hv : valid i.val = true
      · rw [if_pos hv, if_pos hv, h i.val (lt_of_lt_of_le i.isLt hkn)]
      · rw [if_neg hv, if_neg hv, hdv]
  · rw [if_neg h2, if_neg h2]

/-! ## Decode-encode round trip -/

/-- The logical position whose Vandermonde row feeds row i of the decoding
matrix: a surviving source position keeps its own row, an erased one takes
its substituted parity row. -/
def selFn (k : Nat) (valid : Nat → Bool) (i : Fin k) : Nat :=
  if valid i.val then i.val else k + (erasedList k valid).indexOf i.val

/-- The selected-rows Vandermonde matrix of a decode call. -/
def selMat (k : Nat) (valid : Nat → Bool) : Matrix (Fin k) (Fin k) GF :=
  Matrix.of fun i j => vanElt (selFn k valid i) ^ (j : Nat)

theorem mem_erasedList_of_invalid {k : Nat} {valid : Nat → Bool} {i : Fin k}
    (hv : ¬ valid i.val = true) : i.val ∈ erasedList k valid :=
  mem_erasedList.mpr ⟨i.isLt, by rw [← Bool.not_eq_true]; exact hv⟩

theorem selFn_lt {n k : Nat} {valid : Nat → Bool} (hkn : k ≤ n)
    (hE : (erasedList k valid).length ≤ n - k) (i : Fin k) : selFn k valid i < n := by
  unfold selFn
  by_cases hv : valid i.val = true
  · rw [if_pos hv]
    exact lt_of_lt_of_le i.isLt hkn
  · rw [if_neg hv]
    have hidx : (erasedList k valid).indexOf i.val < (erasedList k valid).length :=
      List.indexOf_lt_length.mpr (mem_erasedList_of_invalid hv)
    omega

theorem selFn_inj {n k : Nat} {valid : Nat → Bool} (hkn : k ≤ n)
    (hE : (erasedList k valid).length ≤ n - k) :
    Function.Injective (selFn k valid) := by
  intro i1 i2 h
  unfold selFn at h
  by_cases h1 : valid i1.val = true <;> by_cases h2 : valid i2.val = true
  · rw [if_pos h1, if_pos h2] at h
    exact Fin.ext h
  · rw [if_pos h1, if_neg h2] at h
    exact absurd h (by omega)
  · rw [if_neg h1, if_pos h2] at h
    exact absurd h (by omega)
  · rw [if_neg h1, if_neg h2] at h
    have hm1 := mem_erasedList_of_invalid h1
    have hm2 := mem_erasedList_of_invalid h2
    have hidx : (erasedList k valid).indexOf i1.val =
        (erasedList k valid).indexOf i2.val := by omega
    exact Fin.ext ((List.indexOf_inj hm1 hm2).mp hidx)

theorem selMat_isUnit {n k : Nat} {valid : Nat → Bool} (hkn : k ≤ n) (hn : n ≤ 255)
    (hE : (erasedList k valid).length ≤ n - k) : IsUnit (selMat k valid) := by
  apply vandermonde_sub_isUnit
  intro a b hab
  have ha := vanElt_val (a := selFn k valid a) (by have := selFn_lt hkn hE a; omega)
  have hb := vanElt_val (a := selFn k valid b) (by have := selFn_lt hkn hE b; omega)
  have h2 : (vanElt (selFn k valid a)).val = (vanElt (selFn k valid b)).val :=
    congrArg GF.val hab
  exact selFn_inj hkn hE (by omega)

theorem getD_of_lt {α : Type} (l : List α) (i : Nat) (d : α) (h : i < l.length) :
    l.getD i d = l[i] := by
  rw [List.getD_eq_getElem?_getD, List.getElem?_eq_getElem h]
  rfl

theorem survParity_all_valid {n k : Nat} {valid : Nat → Bool}
    (hv : ∀ i, k ≤ i → i < n → valid i = true) :
    survParity n k valid = (List.range (n - k)).map (fun t => k + t) := by
  unfold survParity
  apply List.filter_eq_self.mpr
  intro p hp
  rcases List.mem_map.mp hp with ⟨t, ht, rfl⟩
  have ht2 := List.mem_range.mp ht
  exact hv _ (by omega) (by omega)

theorem parityFor_invalid {n k : Nat} {valid : Nat → Bool}
    (hv : ∀ i, k ≤ i → i < n → valid i = true)
    (hE : (erasedList k valid).length ≤ n - k) {i : Fin k}
    (hvi : ¬ valid i.val = true) :
    parityFor (erasedList k valid) (survParity n k valid) i.val =
      some (k + (erasedList k valid).indexOf i.val) := by
  unfold parityFor
  rw [survParity_all_valid hv]
  have hidx : (erasedList k valid).indexOf i.val < (erasedList k valid).length :=
    List.indexOf_lt_length.mpr (mem_erasedList_of_invalid hvi)
  rw [List.get?_eq_getElem?, List.getElem?_map, List.getElem?_range (by omega)]
  rfl

theorem decodeMatrix_eq_selMat {n k : Nat} {valid : Nat → Bool}
    {Tinv : Matrix (Fin k) (Fin k) GF}
    (hgjT : gaussJordanInv (vanT k) = some Tinv)
    (hv : ∀ i, k ≤ i → i < n → valid i = true) (hkn : k ≤ n)
    (hE : (erasedList k valid).length ≤ n - k) :
    decodeMatrix ⟨n, k, vanV n k * Tinv⟩ valid = selMat k valid * Tinv := by
  ext i j
  unfold decodeMatrix
  rw [Matrix.of_apply]
  by_cases hvi : valid i.val = true
  · rw [if_pos hvi]
    have hTT := gaussJordanInv_some_right hgjT
    have h1 : (selMat k valid * Tinv) i j = (vanT k * Tinv) i j := by
      rw [Matrix.mul_apply, Matrix.mul_apply]
      apply Finset.sum_congr rfl
      intro t _
      have h2 : selMat k valid i t = vanT k i t := by
        unfold selMat vanT selFn
        rw [Matrix.of_apply, Matrix.of_apply, if_pos hvi]
      rw [h2]
    rw [h1, hTT, Matrix.one_apply]
  · rw [if_neg hvi, parityFor_invalid hv hE hvi]
    have hidx : (erasedList k valid).indexOf i.val < (erasedList k valid).length :=
      List.indexOf_lt_length.mpr (mem_erasedList_of_invalid hvi)
    have hplt : k + (erasedList k valid).indexOf i.val < n := by omega
    show gmRow ⟨n, k, vanV n k * Tinv⟩ (k + (erasedList k valid).indexOf i.val) j = _
    unfold gmRow
    rw [dif_pos hplt]
    show (vanV n k * Tinv) ⟨k + (erasedList k valid).indexOf i.val, hplt⟩ j =
      (selMat k valid * Tinv) i j
    rw [Matrix.mul_apply, Matrix.mul_apply]
    apply Finset.sum_congr rfl
    intro t _
    have h2 : vanV n k ⟨k + (erasedList k valid).indexOf i.val, hplt⟩ t =
        selMat k valid i t := by
      unfold vanV selMat selFn
      rw [Matrix.of_apply, Matrix.of_apply, if_neg hvi]
    rw [h2]

theorem decode_core_encode_ok {n k : Nat} {rs : pgm_rs_t}
    (hrs : pgm_rs_create n k = Except.ok rs)
    {L : Nat} {src : List (List GF)}
    (hsl : src.length = k) (hsb : ∀ blk ∈ src, blk.length = L)
    {valid : Nat → Bool} {getBlk : Nat → List GF}
    (hpv : ∀ i, k ≤ i → i < n → valid i = true)
    (hE : (erasedList k valid).length ≤ n - k)
    (hsrc : ∀ i < k, valid i = true → getBlk i = src.getD i [])
    (hpar : ∀ t < n - k, pgm_rs_encode rs src (k + t) L = Except.ok (getBlk (k + t))) :
    pgm_rs_decode_core rs getBlk valid L = Except.ok src := by
  obtain ⟨⟨hk2, hkn, hn⟩, Tinv, hgjT, rfl⟩ := pgm_rs_create_ok_inv hrs
  have hparb : ∀ t, (ht : t < n - k) → getBlk (k + t) = (List.range L).map fun b =>
      ∑ j : Fin k, (vanV n k * Tinv) ⟨k + t, by omega⟩ j * ((src.getD j.val []).getD b 0) := by
    intro t ht
    obtain ⟨hp, hl, hout⟩ := encode_ok_inv (hpar t ht)
    exact hout
  have hlenok : lengthsOk n getBlk valid L = true := by
    rw [lengthsOk_iff]
    intro i hi hvi
    by_cases hik : i < k
    · rw [hsrc i hik hvi, getD_of_lt src i [] (by omega)]
      exact hsb src[i] (List.getElem_mem _)
    · have ht : i - k < n - k := by omega
      have h2 := hparb (i - k) ht
      have h4 : getBlk i = getBlk (k + (i - k)) := congrArg getBlk (by omega)
      rw [h4, h2, List.length_map, List.length_range]
  have hDeq : decodeMatrix ⟨n, k, vanV n k * Tinv⟩ valid = selMat k valid * Tinv :=
    decodeMatrix_eq_selMat hgjT hpv hkn hE
  have hTinvU : IsUnit Tinv :=
    ⟨⟨Tinv, vanT k, gaussJordanInv_some_left hgjT, gaussJordanInv_some_right hgjT⟩, rfl⟩
  have hDU : IsUnit (decodeMatrix ⟨n, k, vanV n k * Tinv⟩ valid) := by
    rw [hDeq]
    exact (selMat_isUnit hkn hn hE).mul hTinvU
  obtain ⟨Dinv, hgjD⟩ := gaussJordanInv_isUnit hDU
  have hDinv : Dinv * decodeMatrix ⟨n, k, vanV n k * Tinv⟩ valid = 1 :=
    gaussJordanInv_some_left hgjD
  have hbyte : ∀ b, b < L → ∀ j : Fin k,
      (dataVec ⟨n, k, vanV n k * Tinv⟩ getBlk valid j).getD b 0 =
        (decodeMatrix ⟨n, k, vanV n k * Tinv⟩ valid).mulVec
          (fun m : Fin k => (src.getD m.val []).getD b 0) j := by
    intro b hb j
    show _ = ∑ m : Fin k, decodeMatrix ⟨n, k, vanV n k * Tinv⟩ valid j m *
      ((src.getD m.val []).getD b 0)
    by_cases hvj : valid j.val = true
    · have hdv : dataVec ⟨n, k, vanV n k * Tinv⟩ getBlk valid j = getBlk j.val := by
        unfold dataVec
        rw [if_pos hvj]
      have hrow : ∀ m : Fin k, decodeMatrix ⟨n, k, vanV n k * Tinv⟩ valid j m =
          if j = m then 1 else 0 := by
        intro m
        unfold decodeMatrix
        rw [Matrix.of_apply, if_pos hvj]
      rw [hdv, hsrc j.val j.isLt hvj,
        Finset.sum_congr rfl (fun m _ => by rw [hrow m])]
      simp [ite_mul]
    · have hidx : (erasedList k valid).indexOf j.val < (erasedList k valid).length :=
        List.indexOf_lt_length.mpr (mem_erasedList_of_invalid hvj)
      have hplt : k + (erasedList k valid).indexOf j.val < n := by omega
      have hdv : dataVec ⟨n, k, vanV n k * Tinv⟩ getBlk valid j =
          getBlk (k + (erasedList k valid).indexOf j.val) := by
        unfold dataVec
        rw [if_neg hvj, parityFor_invalid hpv hE hvj]
      have hrow : ∀ m : Fin k, decodeMatrix ⟨n, k, vanV n k * Tinv⟩ valid j m =
          (vanV n k * Tinv) ⟨k + (erasedList k valid).indexOf j.val, hplt⟩ m := by
        intro m
        unfold decodeMatrix
        rw [Matrix.of_apply, if_neg hvj, parityFor_invalid hpv hE hvj]
        show gmRow ⟨n, k, vanV n k * Tinv⟩ (k + (erasedList k valid).indexOf j.val) m = _
        unfold gmRow
        rw [dif_pos hplt]
      rw [hdv, hparb _ (by omega), getD_map_range _ hb]
      apply Finset.sum_congr rfl
      intro m _
      rw [hrow m]
  unfold pgm_rs_decode_core
  rw [if_neg (by omega : ¬ (erasedList k valid).length > n - k), if_pos hlenok, hgjD]
  refine congrArg Except.ok ?_
  apply List.ext_getElem
  · rw [List.length_map, List.length_finRange, hsl]
  intro m h1 h2
  have hmk : m < k := by
    rw [List.length_map, List.length_finRange] at h1
    exact h1
  rw [List.getElem_map]
  have hIdx : m < (List.finRange k).length := by
    rw [List.length_finRange]
    exact hmk
  have hfr : (List.finRange k)[m] = (⟨m, hmk⟩ : Fin k) := List.get_finRange hIdx
  rw [hfr]
  by_cases hvm : valid m = true
  · rw [if_pos hvm, hsrc m hmk hvm, getD_of_lt src m [] (by omega)]
  · rw [if_neg hvm]
    have hsml : src[m].length = L := hsb src[m] (List.getElem_mem _)
    apply List.ext_getElem
    · rw [List.length_map, List.length_range, hsml]
    intro b hb1 hb2
    have hb : b < L := by
      rw [List.length_map, List.length_range] at hb1
      exact hb1
    rw [List.getElem_map, List.getElem_range]
    rw [Finset.sum_congr rfl (fun j _ => by rw [hbyte b hb j])]
    show (Dinv.mulVec ((decodeMatrix ⟨n, k, vanV n k * Tinv⟩ valid).mulVec
      (fun m2 : Fin k => (src.getD m2.val []).getD b 0))) ⟨m, hmk⟩ = _
    rw [Matrix.mulVec_mulVec, hDinv, Matrix.one_mulVec]
    rw [getD_of_lt src m [] (by omega), getD_of_lt src[m] b 0 (by omega)]

/-! ## Division cancellation at byte level -/

theorem gfdivB_lt (a b : Nat) : gfdivB a b < 256 := by
  unfold gfdivB
  split
  · omega
  · exact gfantilog_lt _

theorem gfdivB_gfmulB (a b : Nat) (ha : a < 256) (hb : b < 256) (hbne : b ≠ 0) :
    gfdivB (gfmulB a b) b = a := by
  by_cases haz : a = 0
  · subst haz
    have h0 : gfmulB 0 b = 0 := by simp [gfmulB]
    rw [h0]
    unfold gfdivB
    rw [if_pos rfl]
  · have hne := gfmulB_ne_zero a b haz hbne
    have hla := gflog_lt a ha haz
    have hlb := gflog_lt b hb hbne
    have hs : (gflog a + gflog b) % 255 < 255 := Nat.mod_lt _ (by omega)
    rw [gfmulB, if_neg (by push_neg; exact ⟨haz, hbne⟩)] at hne ⊢
    unfold gfdivB
    rw [if_neg hne, gflog_gfantilog _ hs]
    have h2 : ((gflog a + gflog b) % 255 + 255 - gflog b) % 255 = gflog a := by omega
    rw [h2, gfantilog_gflog a ha haz]

/-! ## Concrete codec instances used by the verification witnesses -/

/-- RS(4, 2) instance. -/
def wRS : pgm_rs_t :=
  match pgm_rs_create 4 2 with
  | Except.ok r => r
  | Except.error _ => ⟨0, 0, Matrix.of fun _ j => 0⟩

/-- RS(3, 2) instance. -/
def wRS3 : pgm_rs_t :=
  match pgm_rs_create 3 2 with
  | Except.ok r => r
  | Except.error _ => ⟨0, 0, Matrix.of fun _ j => 0⟩

/-- Two one-byte source blocks. -/
def wSrc : List (List GF) := [[GF.ofNat 7], [GF.ofNat 200]]

/-- First parity block of wRS over wSrc. -/
def wPar2 : List GF :=
  match pgm_rs_encode wRS wSrc 2 1 with
  | Except.ok out => out
  | Except.error _ => []

/-- Second parity block of wRS over wSrc. -/
def wPar3 : List GF :=
  match pgm_rs_encode wRS wSrc 3 1 with
  | Except.ok out => out
  | Except.error _ => []

theorem except_map_ok_inv {e a b : Type} {f : a → b} {x : Except e a} {y : b}
    (h : x.map f = Except.ok y) : ∃ v, x = Except.ok v ∧ f v = y := by
  cases x with
  | error err => exact absurd h (by simp [Except.map])
  | ok v => exact ⟨v, rfl, by simpa [Except.map] using h⟩

/-! ## The claims -/

/-- C1: for every code descriptor produced by create(n,k) with
2 ≤ k ≤ n ≤ 255, every block length L > 0 and every list of k source blocks
of length L, after encoding all n-k parity blocks, decoding a received array
in which every parity position survives, at most n-k source positions are
erased and every surviving source position carries its original block
reproduces all k original source blocks byte-for-byte. -/
theorem claim_C1 {n k : Nat} {rs : pgm_rs_t}
    (hrs : pgm_rs_create n k = Except.ok rs)
    {L : Nat} (hL : 0 < L) {src : List (List GF)}
    (hsl : src.length = k) (hsb : ∀ blk ∈ src, blk.length = L)
    (blocks : List (List GF)) (emap : List Bool)
    (hpv : ∀ i, k ≤ i → i < n → emap.getD i false = true)
    (hE : (erasedList k fun i => emap.getD i false).length ≤ n - k)
    (hsrcb : ∀ i < k, emap.getD i false = true → blocks.getD i [] = src.getD i [])
    (hparb : ∀ t < n - k,
      pgm_rs_encode rs src (k + t) L = Except.ok (blocks.getD (k + t) [])) :
    pgm_rs_decode_parity_inline rs blocks emap L = Except.ok src := by
  unfold pgm_rs_decode_parity_inline
  exact decode_core_encode_ok hrs hsl hsb hpv hE hsrcb hparb

/-- C2: for every descriptor from create(n,k), decoding with exactly n-k
erased source positions succeeds; with n-k+1 erased source positions it
fails with UnrecoverableErasure; and in general the decoder fails with
UnrecoverableErasure exactly when more than n-k source positions are
erased. -/
theorem claim_C2 {n k : Nat} {rs : pgm_rs_t}
    (hrs : pgm_rs_create n k = Except.ok rs) :
    (∀ (L : Nat) (src blocks : List (List GF)) (emap : List Bool),
      src.length = k → (∀ blk ∈ src, blk.length = L) →
      (∀ i, k ≤ i → i < n → emap.getD i false = true) →
      (erasedList k fun i => emap.getD i false).length = n - k →
      (∀ i < k, emap.getD i false = true → blocks.getD i [] = src.getD i []) →
      (∀ t < n - k,
        pgm_rs_encode rs src (k + t) L = Except.ok (blocks.getD (k + t) [])) →
      pgm_rs_decode_parity_inline rs blocks emap L = Except.ok src) ∧
    (∀ (L : Nat) (blocks : List (List GF)) (emap : List Bool),
      (erasedList k fun i => emap.getD i false).length = n - k + 1 →
      pgm_rs_decode_parity_inline rs blocks emap L =
        Except.error RSError.UnrecoverableErasure) ∧
    (∀ (L : Nat) (blocks : List (List GF)) (emap : List Bool),
      pgm_rs_decode_parity_inline rs blocks emap L =
          Except.error RSError.UnrecoverableErasure ↔
        (erasedList k fun i => emap.getD i false).length > n - k) := by
  obtain ⟨⟨hk2, hkn, hn255⟩, Tinv, hgjT, rfl⟩ := pgm_rs_create_ok_inv hrs
  refine ⟨?_, ?_, ?_⟩
  · intro L src blocks emap h1 h2 h3 h4 h5 h6
    unfold pgm_rs_decode_parity_inline
    exact decode_core_encode_ok hrs h1 h2 h3 (by omega) h5 h6
  · intro L blocks emap h1
    unfold pgm_rs_decode_parity_inline
    refine decode_core_unrecoverable ?_
    show (erasedList k fun i => emap.getD i false).length > n - k
    omega
  · intro L blocks emap
    unfold pgm_rs_decode_parity_inline
    exact decode_core_unrecoverable_iff

/-- C3: for every descriptor from create(n,k), rows 0..k-1 of the generator
matrix form the k-by-k identity, and an in-place encode call writes only the
requested parity slot, leaving the k source block slots unmodified. -/
theorem claim_C3 {n k : Nat} {rs : pgm_rs_t}
    (hrs : pgm_rs_create n k = Except.ok rs) :
    (∀ (i j : Fin rs.k) (hik : (i : Nat) < rs.n),
      rs.GM ⟨(i : Nat), hik⟩ j = if i = j then 1 else 0) ∧
    (∀ (blocks blocks2 : List (List GF)) (pidx L : Nat),
      pgm_rs_encode_inplace rs blocks pidx L = Except.ok blocks2 →
      ∀ jj < rs.k, blocks2.getD jj [] = blocks.getD jj []) := by
  refine ⟨?_, ?_⟩
  · obtain ⟨⟨hk2, hkn, hn255⟩, Tinv, hgjT, rfl⟩ := pgm_rs_create_ok_inv hrs
    intro i j hik
    show (vanV n k * Tinv) ⟨(i : Nat), hik⟩ j = if i = j then 1 else 0
    have h1 : (vanV n k * Tinv) ⟨(i : Nat), hik⟩ j = (vanT k * Tinv) i j := by
      rw [Matrix.mul_apply, Matrix.mul_apply]
      apply Finset.sum_congr rfl
      intro t _
      rfl
    rw [h1, gaussJordanInv_some_right hgjT, Matrix.one_apply]
  · intro blocks blocks2 pidx L hok jj hjj
    unfold pgm_rs_encode_inplace at hok
    obtain ⟨out, he, h2⟩ := except_map_ok_inv hok
    obtain ⟨hp, -, -⟩ := encode_ok_inv he
    have hp1 := hp.1
    rw [← h2]
    rw [List.getD_eq_getElem?_getD, List.getElem?_set_ne (by omega : pidx ≠ jj),
      ← List.getD_eq_getElem?_getD]

/-- C4: for every descriptor from create(n,k) and logically identical data
(the inline array agrees position-by-position with the translated
source/parity regions) and the same erasure map and length, the
parity-inline and parity-appended decode entry points return identical
results. -/
theorem claim_C4 {n k : Nat} {rs : pgm_rs_t}
    (hrs : pgm_rs_create n k = Except.ok rs)
    (blocks srcRegion parityRegion : List (List GF)) (emap : List Bool) (L : Nat)
    (hagree : ∀ i < rs.n,
      blocks.getD i [] =
        if i < rs.k then srcRegion.getD i [] else parityRegion.getD (i - rs.k) []) :
    pgm_rs_decode_parity_inline rs blocks emap L =
      pgm_rs_decode_parity_appended rs srcRegion parityRegion emap L := by
  obtain ⟨⟨hk2, hkn, hn255⟩, Tinv, hgjT, rfl⟩ := pgm_rs_create_ok_inv hrs
  unfold pgm_rs_decode_parity_inline pgm_rs_decode_parity_appended
  exact decode_core_congr hkn hagree

/-- C5: whenever encode succeeds, the parity index was in [k, n-1] and each
output byte b < L equals the XOR (field sum) over j = 0..k-1 of
multiply(GM[parityIndex][j], sourceBlocks[j][b]); and for every parity index
outside [k, n-1] encode fails with InvalidIndex. -/
theorem claim_C5 (rs : pgm_rs_t) (src : List (List GF)) (pidx L : Nat) :
    (∀ out, pgm_rs_encode rs src pidx L = Except.ok out →
      ∀ b, b < L → ∃ hp : rs.k ≤ pidx ∧ pidx < rs.n,
        out.getD b 0 =
          ((List.finRange rs.k).map fun j =>
            gf_multiply (rs.GM ⟨pidx, hp.2⟩ j) ((src.getD (j : Nat) []).getD b 0)).foldr
            gf_add 0) ∧
    (¬ (rs.k ≤ pidx ∧ pidx < rs.n) →
      pgm_rs_encode rs src pidx L = Except.error RSError.InvalidIndex) := by
  constructor
  · intro out hok b hb
    obtain ⟨hp, hl, hout⟩ := encode_ok_inv hok
    refine ⟨hp, ?_⟩
    rw [hout, getD_map_range _ hb, Fin.sum_univ_def, List.sum_eq_foldr]
    rfl
  · exact encode_invalidIndex

/-- C6: create(n,k) fails with InvalidParameters exactly when
2 ≤ k ≤ n ≤ 255 does not hold, and a successfully created descriptor
satisfies 2 ≤ k ≤ n ≤ 255. -/
theorem claim_C6 (n k : Nat) :
    (pgm_rs_create n k = Except.error RSError.InvalidParameters ↔
      ¬ (2 ≤ k ∧ k ≤ n ∧ n ≤ 255)) ∧
    (∀ rs : pgm_rs_t, pgm_rs_create n k = Except.ok rs →
      2 ≤ rs.k ∧ rs.k ≤ rs.n ∧ rs.n ≤ 255) := by
  constructor
  · exact pgm_rs_create_invalid_iff
  · intro rs h
    obtain ⟨⟨h1, h2, h3⟩, -, -, rfl⟩ := pgm_rs_create_ok_inv h
    exact ⟨h1, h2, h3⟩

/-- C7: field arithmetic laws: for nonzero a and b,
divide(multiply(a,b), b) = a; and for every a, multiply(a,1) = a and
add(a,a) = 0. -/
theorem claim_C7 (a b : GF) :
    (a ≠ 0 → b ≠ 0 → gf_divide (gf_multiply a b) b = Except.ok a) ∧
    gf_multiply a (1 : GF) = a ∧ gf_add a a = 0 := by
  refine ⟨?_, ?_, ?_⟩
  · intro ha hb
    unfold gf_divide
    rw [if_neg hb]
    refine congrArg Except.ok (GF.ext_val ?_)
    have hml : gfmulB a.val b.val < 256 := by
      unfold gfmulB
      split
      · omega
      · exact gfantilog_lt _
    have hmv : (gf_multiply a b).val = gfmulB a.val b.val := by
      show gfmulB a.val b.val % 256 = gfmulB a.val b.val
      exact Nat.mod_eq_of_lt hml
    rw [hmv]
    show gfdivB (gfmulB a.val b.val) b.val % 256 = a.val
    rw [gfdivB_gfmulB a.val b.val a.isLt b.isLt (gf_val_ne_zero hb)]
    exact Nat.mod_eq_of_lt a.isLt
  · refine GF.ext_val ?_
    show gfmulB a.val 1 % 256 = a.val
    rw [gfmulB_one a.val a.isLt]
    exact Nat.mod_eq_of_lt a.isLt
  · refine GF.ext_val ?_
    show a.val ^^^ a.val = 0
    exact Nat.xor_self _

/-- C8 (amended): both decode entry variants fail with LengthMismatch when a
non-erased supplied block has a length different from L, provided at most
n-k source positions are erased; with more than n-k erased source positions
the UnrecoverableErasure check fires first, so the original unconditional
claim is corrected by this erasure-count side condition. -/
theorem claim_C8 (rs : pgm_rs_t) (blocks srcRegion parityRegion : List (List GF))
    (emap : List Bool) (L : Nat) :
    ((erasedList rs.k fun i => emap.getD i false).length ≤ rs.n - rs.k →
      ∀ i0, i0 < rs.n → emap.getD i0 false = true →
      (blocks.getD i0 []).length ≠ L →
      pgm_rs_decode_parity_inline rs blocks emap L =
        Except.error RSError.LengthMismatch) ∧
    ((erasedList rs.k fun i => emap.getD i false).length ≤ rs.n - rs.k →
      ∀ i0, i0 < rs.n → emap.getD i0 false = true →
      (if i0 < rs.k then srcRegion.getD i0 [] else parityRegion.getD (i0 - rs.k) []).length ≠ L →
      pgm_rs_decode_parity_appended rs srcRegion parityRegion emap L =
        Except.error RSError.LengthMismatch) := by
  constructor
  · intro hE i0 hi0 hv hlen
    unfold pgm_rs_decode_parity_inline
    refine decode_core_lengthMismatch (by omega) ?_
    rw [Bool.eq_false_iff]
    intro hok
    exact hlen (lengthsOk_iff.mp hok i0 hi0 hv)
  · intro hE i0 hi0 hv hlen
    unfold pgm_rs_decode_parity_appended
    refine decode_core_lengthMismatch (by omega) ?_
    rw [Bool.eq_false_iff]
    intro hok
    exact hlen (lengthsOk_iff.mp hok i0 hi0 hv)

/-- C9: every operation of the C interface returns void: the Unit component
of each wrapper is the entire value communicated through the return channel,
so no error of the taxonomy is ever reported to the caller via a return
value. -/
theorem claim_C9 :
    (∀ n k : Fin 256, (pgm_rs_create_c n k).1 = ()) ∧
    (∀ rs : pgm_rs_t, pgm_rs_destroy_c rs = ()) ∧
    (∀ (rs : pgm_rs_t) (src : List (List GF)) (pidx : Fin 256) (L : Fin 65536),
      (pgm_rs_encode_c rs src pidx L).1 = ()) ∧
    (∀ (rs : pgm_rs_t) (blocks : List (List GF)) (emap : List Bool) (L : Fin 65536),
      (pgm_rs_decode_parity_inline_c rs blocks emap L).1 = ()) ∧
    (∀ (rs : pgm_rs_t) (srcRegion parityRegion : List (List GF)) (emap : List Bool)
        (L : Fin 65536),
      (pgm_rs_decode_parity_appended_c rs srcRegion parityRegion emap L).1 = ()) :=
  ⟨fun _ _ => rfl, fun _ => rfl, fun _ _ _ _ => rfl, fun _ _ _ _ => rfl,
    fun _ _ _ _ _ => rfl⟩

/-- C10: n and k enter the C interface as uint8_t and L as uint16_t, the
wrappers forward those bounded values unchanged to the model, every
descriptor reachable through create satisfies n ≤ 255 and k ≤ 255, and the
default n is 255. -/
theorem claim_C10 :
    (∀ n k : Fin 256, (n : Nat) ≤ 255 ∧ (k : Nat) ≤ 255 ∧
      (pgm_rs_create_c n k).2 = pgm_rs_create (n : Nat) (k : Nat)) ∧
    (∀ (n k : Nat) (rs : pgm_rs_t), pgm_rs_create n k = Except.ok rs →
      rs.n ≤ 255 ∧ rs.k ≤ 255) ∧
    PGM_RS_DEFAULT_N = 255 ∧
    (∀ (rs : pgm_rs_t) (src : List (List GF)) (pidx : Fin 256) (L : Fin 65536),
      (L : Nat) ≤ 65535 ∧
      (pgm_rs_encode_c rs src pidx L).2 = pgm_rs_encode rs src (pidx : Nat) (L : Nat)) ∧
    (∀ (rs : pgm_rs_t) (blocks : List (List GF)) (emap : List Bool) (L : Fin 65536),
      (pgm_rs_decode_parity_inline_c rs blocks emap L).2 =
        pgm_rs_decode_parity_inline rs blocks emap (L : Nat)) ∧
    (∀ (rs : pgm_rs_t) (srcRegion parityRegion : List (List GF)) (emap : List Bool)
        (L : Fin 65536),
      (pgm_rs_decode_parity_appended_c rs srcRegion parityRegion emap L).2 =
        pgm_rs_decode_parity_appended rs srcRegion parityRegion emap (L : Nat)) := by
  refine ⟨fun n k => ⟨Nat.le_of_lt_succ n.isLt, Nat.le_of_lt_succ k.isLt, rfl⟩, ?_, rfl,
    fun rs src pidx L => ⟨Nat.le_of_lt_succ L.isLt, rfl⟩, fun rs blocks emap L => rfl,
    fun rs srcRegion parityRegion emap L => rfl⟩
  intro n k rs h
  obtain ⟨⟨h1, h2, h3⟩, -, -, rfl⟩ := pgm_rs_create_ok_inv h
  exact ⟨h3, le_trans h2 h3⟩

/-- Witness for C1: the RS(4,2) instance round-trips two one-byte source
blocks after both source positions are erased. -/
theorem claim_C1_witness :
    pgm_rs_decode_parity_inline wRS [[], [], wPar2, wPar3] [false, false, true, true] 1 =
      Except.ok wSrc := by
  exact claim_C1 (n := 4) (k := 2) (L := 1)
    (by decide : pgm_rs_create 4 2 = Except.ok wRS) (by decide)
    (by decide : wSrc.length = 2) (by decide)
    [[], [], wPar2, wPar3] [false, false, true, true]
    (by intro i h1 h2; interval_cases i <;> decide)
    (by decide)
    (by intro i h1 h2; interval_cases i <;> exact absurd h2 (by decide))
    (by intro t ht; interval_cases t <;> decide)

/-- The single parity block of the RS(3,2) instance over wSrc. -/
def wQar : List GF :=
  match pgm_rs_encode wRS3 wSrc 2 1 with
  | Except.ok out => out
  | Except.error _ => []

/-- Witness for C2: the RS(3,2) instance recovers from exactly n-k = 1
erasure, rejects n-k+1 = 2 erasures with UnrecoverableErasure, and a
single erasure is not rejected as unrecoverable. -/
theorem claim_C2_witness :
    pgm_rs_decode_parity_inline wRS3 [[], wSrc.getD 1 [], wQar]
        [false, true, true] 1 = Except.ok wSrc ∧
    pgm_rs_decode_parity_inline wRS3 [[], [], []] [false, false, true] 1 =
      Except.error RSError.UnrecoverableErasure ∧
    ¬ (pgm_rs_decode_parity_inline wRS3 [[], [], []] [true, false, true] 1 =
      Except.error RSError.UnrecoverableErasure) := by
  have h3 := claim_C2 (n := 3) (k := 2) (by decide : pgm_rs_create 3 2 = Except.ok wRS3)
  refine ⟨?_, ?_, ?_⟩
  · exact h3.1 1 wSrc [[], wSrc.getD 1 [], wQar] [false, true, true]
      (by decide) (by decide)
      (by intro i h1 h2; interval_cases i <;> decide)
      (by decide)
      (by intro i h1 h2; interval_cases i <;> first | exact absurd h2 (by decide) | decide)
      (by intro t ht; interval_cases t <;> decide)
  · exact h3.2.1 1 [[], [], []] [false, false, true] (by decide)
  · intro hcon
    have h4 := (h3.2.2 1 [[], [], []] [true, false, true]).mp hcon
    exact absurd h4 (by decide)

/-- Witness for C3: the RS(4,2) generator matrix has identity entries in its
top rows, and an in-place encode into parity slot 2 leaves the two source
slots unchanged. -/
theorem claim_C3_witness :
    wRS.GM ⟨0, by decide⟩ (⟨0, by decide⟩ : Fin wRS.k) = 1 ∧
    wRS.GM ⟨1, by decide⟩ (⟨0, by decide⟩ : Fin wRS.k) = 0 ∧
    ∃ blocks2,
      pgm_rs_encode_inplace wRS [[GF.ofNat 7], [GF.ofNat 200], [], []] 2 1 =
        Except.ok blocks2 ∧
      blocks2.getD 0 [] = [GF.ofNat 7] ∧ blocks2.getD 1 [] = [GF.ofNat 200] := by
  have h := claim_C3 (n := 4) (k := 2) (by decide : pgm_rs_create 4 2 = Except.ok wRS)
  refine ⟨?_, ?_, ?_⟩
  · have h1 := h.1 ⟨0, by decide⟩ ⟨0, by decide⟩ (by decide)
    rw [if_pos rfl] at h1
    exact h1
  · have h1 := h.1 ⟨1, by decide⟩ ⟨0, by decide⟩ (by decide)
    rw [if_neg (by decide)] at h1
    exact h1
  · refine ⟨[[GF.ofNat 7], [GF.ofNat 200], wPar2, []], by decide, ?_, ?_⟩
    · exact h.2 [[GF.ofNat 7], [GF.ofNat 200], [], []]
        [[GF.ofNat 7], [GF.ofNat 200], wPar2, []] 2 1 (by decide) 0 (by decide)
    · exact h.2 [[GF.ofNat 7], [GF.ofNat 200], [], []]
        [[GF.ofNat 7], [GF.ofNat 200], wPar2, []] 2 1 (by decide) 1 (by decide)

/-- Witness for C4: on the RS(4,2) instance the inline call on the
contiguous array agrees with the appended call on the split regions. -/
theorem claim_C4_witness :
    pgm_rs_decode_parity_inline wRS [[], [], wPar2, wPar3] [false, false, true, true] 1 =
      pgm_rs_decode_parity_appended wRS [[], []] [wPar2, wPar3]
        [false, false, true, true] 1 := by
  exact claim_C4 (n := 4) (k := 2) (by decide : pgm_rs_create 4 2 = Except.ok wRS)
    [[], [], wPar2, wPar3] [[], []] [wPar2, wPar3] [false, false, true, true] 1
    (by
      intro i hi
      have hi4 : i < 4 := Nat.lt_of_lt_of_le hi (by decide)
      interval_cases i <;> decide)

/-- Witness for C5: the first byte of the RS(4,2) parity block at index 2
equals the generator-row combination of the source bytes, and index 0 is
rejected with InvalidIndex. -/
theorem claim_C5_witness :
    (∃ hp : wRS.k ≤ 2 ∧ 2 < wRS.n,
      wPar2.getD 0 0 =
        ((List.finRange wRS.k).map fun j =>
          gf_multiply (wRS.GM ⟨2, hp.2⟩ j) ((wSrc.getD (j : Nat) []).getD 0 0)).foldr
          gf_add 0) ∧
    pgm_rs_encode wRS wSrc 0 1 = Except.error RSError.InvalidIndex := by
  exact ⟨(claim_C5 wRS wSrc 2 1).1 wPar2 (by decide) 0 (by decide),
    (claim_C5 wRS wSrc 0 1).2 (by decide)⟩

/-- Witness for C6: create(1,5) violates the parameter bounds and fails with
InvalidParameters, while the RS(4,2) descriptor satisfies them. -/
theorem claim_C6_witness :
    pgm_rs_create 1 5 = Except.error RSError.InvalidParameters ∧
    (2 ≤ wRS.k ∧ wRS.k ≤ wRS.n ∧ wRS.n ≤ 255) := by
  exact ⟨(claim_C6 1 5).1.mpr (by decide), (claim_C6 4 2).2 wRS (by decide)⟩

/-- Witness for C7: the field laws hold at the sample bytes 7 and 9. -/
theorem claim_C7_witness :
    gf_divide (gf_multiply (GF.ofNat 7) (GF.ofNat 9)) (GF.ofNat 9) =
      Except.ok (GF.ofNat 7) ∧
    gf_multiply (GF.ofNat 7) 1 = GF.ofNat 7 ∧
    gf_add (GF.ofNat 7) (GF.ofNat 7) = 0 := by
  have h := claim_C7 (GF.ofNat 7) (GF.ofNat 9)
  exact ⟨h.1 (by decide) (by decide), h.2.1, h.2.2⟩

/-- Witness for C8 (amended): with the erasure count within bounds, a
non-erased block of the wrong length makes both entry variants fail with
LengthMismatch. -/
theorem claim_C8_witness :
    pgm_rs_decode_parity_inline wRS [[], [GF.ofNat 1, GF.ofNat 2], wPar2, wPar3]
        [false, true, true, true] 1 = Except.error RSError.LengthMismatch ∧
    pgm_rs_decode_parity_appended wRS3 [[], []] [[GF.ofNat 1, GF.ofNat 2]]
        [true, false, true] 1 = Except.error RSError.LengthMismatch := by
  refine ⟨?_, ?_⟩
  · exact (claim_C8 wRS [[], [GF.ofNat 1, GF.ofNat 2], wPar2, wPar3] [] []
      [false, true, true, true] 1).1 (by decide) 1 (by decide) (by decide) (by decide)
  · exact (claim_C8 wRS3 [] [[], []] [[GF.ofNat 1, GF.ofNat 2]]
      [true, false, true] 1).2 (by decide) 2 (by decide) (by decide) (by decide)

/-- Counterexample for C8 as stated: on the RS(3,2) instance, position 2 is
within range, non-erased and supplied with length 2 instead of L = 1, yet
the decode call does not fail with LengthMismatch: both source positions
are erased, which exceeds n-k, so UnrecoverableErasure fires first. -/
theorem claim_C8_counterexample :
    (2 : Nat) < wRS3.n ∧
    ([false, false, true] : List Bool).getD 2 false = true ∧
    (([[], [], [GF.ofNat 1, GF.ofNat 2]] : List (List GF)).getD 2 []).length ≠ 1 ∧
    pgm_rs_decode_parity_inline wRS3 [[], [], [GF.ofNat 1, GF.ofNat 2]]
        [false, false, true] 1 ≠ Except.error RSError.LengthMismatch ∧
    pgm_rs_decode_parity_inline wRS3 [[], [], [GF.ofNat 1, GF.ofNat 2]]
        [false, false, true] 1 = Except.error RSError.UnrecoverableErasure := by
  refine ⟨by decide, by decide, by decide, by decide, by decide⟩

/-- Witness for C10: the bounds and forwarding facts evaluated on the
RS(4,2) instance and sample C-level arguments. -/
theorem claim_C10_witness :
    ((4 : Fin 256) : Nat) ≤ 255 ∧
    (pgm_rs_create_c 4 2).2 = pgm_rs_create 4 2 ∧
    (wRS.n ≤ 255 ∧ wRS.k ≤ 255) ∧
    PGM_RS_DEFAULT_N = 255 ∧
    (pgm_rs_encode_c wRS wSrc 2 1).2 = pgm_rs_encode wRS wSrc 2 1 := by
  have h := claim_C10
  exact ⟨(h.1 4 2).1, (h.1 4 2).2.2, h.2.1 4 2 wRS (by decide), h.2.2.1,
    (h.2.2.2.1 wRS wSrc 2 1).2⟩
